import Mathlib

/-!
# wss-gateway-sns: queue consumer and SNS webhook

A shallow embedding of `src/main.go` (the SQS poll loop) and of
`src/aws/sns_handler.go` (the SNS webhook), with the properties of the
natural-language specification stated over it.

Conventions of the embedding.

* A Go `string` is the list of its characters (`Str`); texts are taken to be
  valid UTF-8, so that slicing one ASCII byte off either end is dropping one
  character.
* The external services (the HTTP sink, SQS `DeleteMessage`, SNS
  `ConfirmSubscription`) are oracles of a `World`: each answers from the
  history of the calls made so far and the arguments of the call.  Every
  function that talks to a service returns the calls it made, in order, each
  recorded with its outcome.
* The JSON decoder and the RFC 3339 time codec are the Go libraries the source
  calls (`encoding/json`, `goccy/go-json`, `time`, `strconv`); they are
  embedded as executable definitions following the documented behaviour of
  those libraries.  Decoding is in two steps: the text is read as a JSON
  document (`parseJSON`), and the document is stored as a Go value
  (`decodeDocument`), its numbers as the nearest `float64`.
* `log.Printf` has no effect on the calls made and is left out; `log.Fatalf`
  ends the process and is an explicit outcome.
-/

namespace Gateway

/-- A Go string: the list of its characters. -/
abbrev Str := List Char

/-! ## JSON documents, Go values and the decoder -/

/-- A JSON number as its text writes it: a sign, the digits of the integer and
fraction parts read as one number, and a power of ten.  It denotes
`± digits * 10 ^ exponent`, exactly. -/
structure Decimal where
  negative : Bool
  digits : Nat
  exponent : Int
  deriving DecidableEq

/-- A JSON document as its text writes it (RFC 8259): numbers exact, the
members of an object in the order of the text, members of the same name
all kept. -/
inductive JDoc where
  | null : JDoc
  | bool (b : Bool) : JDoc
  | num (n : Decimal) : JDoc
  | str (s : Str) : JDoc
  | arr (items : List JDoc) : JDoc
  | obj (members : List (Str × JDoc)) : JDoc

/-- A finite `float64`: it denotes `± mantissa * 2 ^ exponent`.  A normal
number has its mantissa from `2^52` to `2^53 - 1` and its exponent from -1074
to 971; zero and the subnormal numbers have a mantissa below `2^52` and the
exponent -1074.  Every finite `float64` is written so in one way. -/
structure Float64 where
  negative : Bool
  mantissa : Nat
  exponent : Int
  deriving DecidableEq

/-- What `Unmarshal` stores in an `interface{}`: `nil`, a `bool`, a `float64`,
a `string`, a `[]interface{}` or a `map[string]interface{}`.  A map is kept
as its entries, keys distinct.  The same type describes the JSON document
that `Marshal` writes for such a value: the number it writes for a `float64`
denotes that `float64`. -/
inductive JValue where
  | null : JValue
  | bool (b : Bool) : JValue
  | num (f : Float64) : JValue
  | str (s : Str) : JValue
  | arr (items : List JValue) : JValue
  | obj (entries : List (Str × JValue)) : JValue

/-- JSON insignificant whitespace. -/
def isSpace (c : Char) : Bool :=
  c.toNat = 32 || c.toNat = 9 || c.toNat = 13 || c.toNat = 10

/-- Drops leading whitespace. -/
def skipSpace : Str → Str
  | [] => []
  | c :: cs => if isSpace c then skipSpace cs else c :: cs

/-- The value of a hexadecimal digit. -/
def hexVal (c : Char) : Option Nat :=
  let n := c.toNat
  if 48 ≤ n ∧ n ≤ 57 then some (n - 48)
  else if 97 ≤ n ∧ n ≤ 102 then some (n - 87)
  else if 65 ≤ n ∧ n ≤ 70 then some (n - 55)
  else none

/-- The code unit written by the four hexadecimal digits of a `\u` escape. -/
def getu4 (a b c d : Char) : Option Nat :=
  match hexVal a, hexVal b, hexVal c, hexVal d with
  | some x, some y, some z, some w => some (((x * 16 + y) * 16 + z) * 16 + w)
  | _, _, _, _ => none

/-- The character of a one-letter escape. -/
def unescapeChar (c : Char) : Option Char :=
  if c = '"' then some '"'
  else if c = '\\' then some '\\'
  else if c = '/' then some '/'
  else if c = 'b' then some (Char.ofNat 8)
  else if c = 'f' then some (Char.ofNat 12)
  else if c = 'n' then some '\n'
  else if c = 'r' then some '\r'
  else if c = 't' then some '\t'
  else none

/-- The Unicode replacement character U+FFFD. -/
def replacementChar : Char := Char.ofNat 65533

/-- Puts a decoded character in front of the rest of a scanned string. -/
def consChar (c : Char) : Option (Str × Str) → Option (Str × Str)
  | some (s, rest) => some (c :: s, rest)
  | none => none

/-- What a backslash escape decodes to, from the text after the backslash:
the character, and how many characters of that text the escape takes.  A
`\u` escape that is half of a surrogate pair without its other half decodes
to U+FFFD (`unquote` of the decoder). -/
def decodeEscape : Str → Option (Char × Nat)
  | [] => none
  | e :: rest =>
    if e = 'u' then
      match rest with
      | a :: b :: c :: d :: rest1 =>
        match getu4 a b c d with
        | none => none
        | some hi =>
          if 55296 ≤ hi ∧ hi < 57344 then
            match rest1 with
            | e1 :: e2 :: f :: g :: h :: i :: _ =>
              if e1 = '\\' ∧ e2 = 'u' then
                match getu4 f g h i with
                | some lo =>
                  if hi < 56320 ∧ 56320 ≤ lo ∧ lo < 57344 then
                    some (Char.ofNat ((hi - 55296) * 1024 + (lo - 56320) + 65536), 11)
                  else some (replacementChar, 5)
                | none => some (replacementChar, 5)
              else some (replacementChar, 5)
            | _ => some (replacementChar, 5)
          else some (Char.ofNat hi, 5)
      | _ => none
    else
      match unescapeChar e with
      | some c => some (c, 1)
      | none => none

/-- Reads a string literal whose opening quote has been consumed, after
skipping `skip` characters that belong to an escape already decoded: the
decoded content and the text after the closing quote.  Control characters are
rejected. -/
def scanStringFrom : Nat → Str → Option (Str × Str)
  | _, [] => none
  | skip + 1, _ :: rest => scanStringFrom skip rest
  | 0, c :: rest =>
    if c = '"' then some ([], rest)
    else if c = '\\' then
      match decodeEscape rest with
      | some (ch, k) => consChar ch (scanStringFrom k rest)
      | none => none
    else if c.toNat < 32 then none
    else consChar c (scanStringFrom 0 rest)

/-- Reads a string literal whose opening quote has been consumed. -/
def scanString (cs : Str) : Option (Str × Str) := scanStringFrom 0 cs

/-- Decimal digit test. -/
def isDigit (c : Char) : Bool := 48 ≤ c.toNat && c.toNat ≤ 57

/-- Splits off the longest run of leading digits. -/
def spanDigits : Str → Str × Str
  | [] => ([], [])
  | c :: cs =>
    if isDigit c then ((c :: (spanDigits cs).1), (spanDigits cs).2) else ([], c :: cs)

/-- The number written by a run of digits. -/
def digitsVal (ds : Str) : Nat :=
  ds.foldl (fun acc c => acc * 10 + (c.toNat - 48)) 0

/-- The integer part of a number literal: `0`, or a nonzero digit and digits. -/
def scanInt : Str → Option (Str × Str)
  | [] => none
  | c :: cs =>
    if c = '0' then some ([c], cs)
    else if isDigit c then some (c :: (spanDigits cs).1, (spanDigits cs).2)
    else none

/-- The optional fraction of a number literal. -/
def scanFrac : Str → Option (Str × Str)
  | '.' :: cs =>
    match spanDigits cs with
    | ([], _) => none
    | (ds, rest) => some (ds, rest)
  | cs => some ([], cs)

/-- The optional exponent of a number literal: its sign, its digits, the rest. -/
def scanExp : Str → Option (Bool × Str × Str)
  | [] => some (false, [], [])
  | c :: cs =>
    if c = 'e' ∨ c = 'E' then
      match cs with
      | '+' :: r =>
        match spanDigits r with
        | ([], _) => none
        | (ds, rest) => some (false, ds, rest)
      | '-' :: r =>
        match spanDigits r with
        | ([], _) => none
        | (ds, rest) => some (true, ds, rest)
      | r =>
        match spanDigits r with
        | ([], _) => none
        | (ds, rest) => some (false, ds, rest)
    else some (false, [], c :: cs)

/-- Reads a number literal: the number it writes and the text after it. -/
def scanNumber (cs : Str) : Option (Decimal × Str) :=
  let neg := match cs with
    | '-' :: _ => true
    | _ => false
  let body := if neg then cs.drop 1 else cs
  match scanInt body with
  | none => none
  | some (ip, r1) =>
    match scanFrac r1 with
    | none => none
    | some (fp, r2) =>
      match scanExp r2 with
      | none => none
      | some (eneg, ep, r3) =>
        some (⟨neg, digitsVal (ip ++ fp),
          (if eneg then -(digitsVal ep : Int) else (digitsVal ep : Int)) - (fp.length : Int)⟩,
          r3)

/-- Reads the rest of one of the words `null`, `true`, `false` after its first
letter. -/
def keyword (tail : Str) (v : JDoc) (cs : Str) : Option (JDoc × Str) :=
  if tail.isPrefixOf cs then some (v, cs.drop tail.length) else none

mutual
/-- Reads one JSON value: the document and the text after it. -/
def value : Nat → Str → Option (JDoc × Str)
  | 0, _ => none
  | fuel + 1, cs =>
    match skipSpace cs with
    | [] => none
    | c :: r =>
      if c = '{' then
        match skipSpace r with
        | [] => none
        | d :: r1 =>
          if d = '}' then some (JDoc.obj [], r1)
          else object fuel [] (d :: r1)
      else if c = '[' then
        match skipSpace r with
        | [] => none
        | d :: r1 =>
          if d = ']' then some (JDoc.arr [], r1)
          else array fuel [] (d :: r1)
      else if c = '"' then
        match scanString r with
        | some (s, r1) => some (JDoc.str s, r1)
        | none => none
      else if c = 'n' then keyword "ull".toList JDoc.null r
      else if c = 't' then keyword "rue".toList (JDoc.bool true) r
      else if c = 'f' then keyword "alse".toList (JDoc.bool false) r
      else
        match scanNumber (c :: r) with
        | some (n, r1) => some (JDoc.num n, r1)
        | none => none
/-- Reads the elements of an array from its next element on. -/
def array : Nat → List JDoc → Str → Option (JDoc × Str)
  | 0, _, _ => none
  | fuel + 1, acc, cs =>
    match value fuel cs with
    | none => none
    | some (v, r) =>
      match skipSpace r with
      | [] => none
      | d :: r1 =>
        if d = ',' then array fuel (acc ++ [v]) r1
        else if d = ']' then some (JDoc.arr (acc ++ [v]), r1)
        else none
/-- Reads the members of an object from its next key on. -/
def object : Nat → List (Str × JDoc) → Str → Option (JDoc × Str)
  | 0, _, _ => none
  | fuel + 1, acc, cs =>
    match skipSpace cs with
    | [] => none
    | q :: r =>
      if q = '"' then
        match scanString r with
        | none => none
        | some (k, r1) =>
          match skipSpace r1 with
          | [] => none
          | colon :: r2 =>
            if colon = ':' then
              match value fuel r2 with
              | none => none
              | some (v, r3) =>
                match skipSpace r3 with
                | [] => none
                | d :: r4 =>
                  if d = ',' then object fuel (acc ++ [(k, v)]) r4
                  else if d = '}' then some (JDoc.obj (acc ++ [(k, v)]), r4)
                  else none
            else none
      else none
end

/-- The document that a JSON text writes: one value, whitespace allowed
around it; `none` for a text that is not JSON.  The recursion is bounded by a
fuel, the length of the text, which is enough for every text
(`parseJSON_of_value`). -/
def parseJSON (data : Str) : Option JDoc :=
  match value (data.length + 1) data with
  | some (doc, rest) => if skipSpace rest = [] then some doc else none
  | none => none

/-- The constant `maxNestingDepth` of the decoder: arrays and objects may be
nested this deep and no deeper. -/
def maxNestingDepth : Nat := 10000

mutual
/-- How deep the arrays and objects of a document are nested. -/
def nesting : JDoc → Nat
  | JDoc.arr items => nestingItems items + 1
  | JDoc.obj members => nestingMembers members + 1
  | _ => 0
/-- The deepest nesting among the elements of an array. -/
def nestingItems : List JDoc → Nat
  | [] => 0
  | d :: ds => max (nesting d) (nestingItems ds)
/-- The deepest nesting among the members of an object. -/
def nestingMembers : List (Str × JDoc) → Nat
  | [] => 0
  | (_, d) :: ms => max (nesting d) (nestingMembers ms)
end

/-- The number of binary digits of a number, counted with a fuel. -/
def bitLengthFrom : Nat → Nat → Nat
  | 0, _ => 0
  | fuel + 1, n => if n = 0 then 0 else bitLengthFrom fuel (n / 2) + 1

/-- The number of binary digits of a number. -/
def bitLength (n : Nat) : Nat := bitLengthFrom n n

/-- The fraction `num / den` divided by `2 ^ k`, as a numerator and a
denominator. -/
def scaleBy2 (num den : Nat) (k : Int) : Nat × Nat :=
  if 0 ≤ k then (num, den * 2 ^ k.toNat) else (num * 2 ^ (-k).toNat, den)

/-- The whole number nearest to `num / den`, the even one of two that are
equally near. -/
def roundHalfEven (num den : Nat) : Nat :=
  if den < 2 * (num % den) ∨ (2 * (num % den) = den ∧ num / den % 2 = 1) then num / den + 1
  else num / den

/-- The `float64` nearest to `± num / den` (IEEE 754 round to nearest, ties to
even); `none` when that is not finite.  With `e` the binary exponent of the
fraction, the result has 53 binary digits from `2 ^ e` down, or ends at
`2 ^ -1074` for a subnormal result. -/
def roundToFloat64 (negative : Bool) (num den : Nat) : Option Float64 :=
  if num = 0 then some ⟨negative, 0, -1074⟩
  else
    let b : Int := (bitLength num : Int) - (bitLength den : Int)
    let e : Int := if (scaleBy2 num den b).2 ≤ (scaleBy2 num den b).1 then b else b - 1
    let k : Int := max (e - 52) (-1074)
    let q := roundHalfEven (scaleBy2 num den k).1 (scaleBy2 num den k).2
    let r : Float64 := if q = 2 ^ 53 then ⟨negative, 2 ^ 52, k + 1⟩ else ⟨negative, q, k⟩
    if 971 < r.exponent then none else some r

/-- The call `strconv.ParseFloat(s, 64)` on a number literal: the nearest
`float64`, and an error for a number that rounds to no finite `float64`. -/
def ParseFloat (n : Decimal) : Option Float64 :=
  if 0 ≤ n.exponent then roundToFloat64 n.negative (n.digits * 10 ^ n.exponent.toNat) 1
  else roundToFloat64 n.negative n.digits (10 ^ (-n.exponent).toNat)

/-- A Go `map[string]interface{}` that is not nil, as its list of entries. -/
abbrev JMap := List (Str × JValue)

/-- Map assignment `m[k] = v`: replaces the entry of `k` when there is one. -/
def setEntry : JMap → Str → JValue → JMap
  | [], k, v => [(k, v)]
  | (k0, v0) :: rest, k, v =>
    if k0 = k then (k, v) :: rest else (k0, v0) :: setEntry rest k v

/-- Map lookup `m[k]`. -/
def getEntry : JMap → Str → Option JValue
  | [], _ => none
  | (k0, v0) :: rest, k => if k0 = k then some v0 else getEntry rest k

mutual
/-- The Go value the decoder stores for a document in an `interface{}`
(`valueInterface`): a number becomes the nearest `float64`, an object a map.
`none` is the error for a number outside the `float64` range. -/
def valueInterface : JDoc → Option JValue
  | JDoc.null => some JValue.null
  | JDoc.bool b => some (JValue.bool b)
  | JDoc.num n =>
    match ParseFloat n with
    | some f => some (JValue.num f)
    | none => none
  | JDoc.str s => some (JValue.str s)
  | JDoc.arr items =>
    match arrayInterface items with
    | some vs => some (JValue.arr vs)
    | none => none
  | JDoc.obj members =>
    match objectInterface members [] with
    | some entries => some (JValue.obj entries)
    | none => none
/-- The slice stored for the elements of an array (`arrayInterface`). -/
def arrayInterface : List JDoc → Option (List JValue)
  | [] => some []
  | d :: ds =>
    match valueInterface d, arrayInterface ds with
    | some v, some vs => some (v :: vs)
    | _, _ => none
/-- The map stored for the members of an object (`objectInterface`): each
member is assigned in the order of the text, so that of members with the same
name the last one stays. -/
def objectInterface : List (Str × JDoc) → JMap → Option JMap
  | [], acc => some acc
  | (k, d) :: ms, acc =>
    match valueInterface d with
    | some v => objectInterface ms (setEntry acc k v)
    | none => none
end

/-- What `Unmarshal` into an `interface{}` makes of a document: an error
(`none`) when it is nested deeper than `maxNestingDepth` or holds a number
outside the `float64` range, else the Go value. -/
def decodeDocument (doc : JDoc) : Option JValue :=
  if maxNestingDepth < nesting doc then none else valueInterface doc

/-- Decodes a whole JSON text as `Unmarshal` into an `interface{}` does: the
Go value, or `none` for an error. -/
def decodeText (data : Str) : Option JValue :=
  match parseJSON data with
  | none => none
  | some doc => decodeDocument doc

/-- Why `Unmarshal` returns an error: the text is not JSON, or its value
cannot be stored in the Go value it is decoded into. -/
inductive UnmarshalError where
  | syntaxError : UnmarshalError
  | typeError : UnmarshalError
  deriving DecidableEq

/-- The decoder's `Unmarshal(data, &m)` for a nil `m` of type
`map[string]interface{}`: an object is stored as a map, `null` leaves `m` nil
and is no error, any other value is a type error.  `none` is the nil map.  A
text that `decodeText` does not decode is reported with the first kind of
error, whatever made the decoder fail; the source only tests whether there is
an error. -/
def unmarshalMap (data : Str) : Except UnmarshalError (Option JMap) :=
  match decodeText data with
  | none => Except.error UnmarshalError.syntaxError
  | some (JValue.obj entries) => Except.ok (some entries)
  | some JValue.null => Except.ok none
  | some _ => Except.error UnmarshalError.typeError

/-- The decoder's `Unmarshal(data, &s)` for an empty `s` of type `string`: a
string is stored, `null` leaves `s` empty and is no error, any other value is
a type error. -/
def unmarshalString (data : Str) : Except UnmarshalError Str :=
  match decodeText data with
  | none => Except.error UnmarshalError.syntaxError
  | some (JValue.str s) => Except.ok s
  | some JValue.null => Except.ok []
  | some _ => Except.error UnmarshalError.typeError

/-- The JSON document `Marshal` writes for a `map[string]interface{}`: an object
for a map, `null` for the nil map.  A `float64` of the map is written as
itself: the number `Marshal` writes is read back as that `float64`. -/
def marshalMap : Option JMap → JValue
  | some entries => JValue.obj entries
  | none => JValue.null

/-! ### Equality of documents and of values is decidable -/

mutual
/-- Boolean equality of documents. -/
def beqDoc : JDoc → JDoc → Bool
  | JDoc.null, JDoc.null => true
  | JDoc.bool a, JDoc.bool b => decide (a = b)
  | JDoc.num a, JDoc.num b => decide (a = b)
  | JDoc.str a, JDoc.str b => decide (a = b)
  | JDoc.arr xs, JDoc.arr ys => beqDocs xs ys
  | JDoc.obj xs, JDoc.obj ys => beqMembers xs ys
  | _, _ => false
/-- Boolean equality of lists of documents. -/
def beqDocs : List JDoc → List JDoc → Bool
  | [], [] => true
  | x :: xs, y :: ys => beqDoc x y && beqDocs xs ys
  | _, _ => false
/-- Boolean equality of lists of members. -/
def beqMembers : List (Str × JDoc) → List (Str × JDoc) → Bool
  | [], [] => true
  | (k, x) :: xs, (l, y) :: ys => decide (k = l) && (beqDoc x y && beqMembers xs ys)
  | _, _ => false
end

mutual
/-- Documents that `beqDoc` accepts are equal. -/
theorem eq_of_beqDoc : ∀ a b : JDoc, beqDoc a b = true → a = b
  | JDoc.null, b, h => by cases b <;> simp_all [beqDoc]
  | JDoc.bool x, b, h => by cases b <;> simp_all [beqDoc]
  | JDoc.num x, b, h => by cases b <;> simp_all [beqDoc]
  | JDoc.str x, b, h => by cases b <;> simp_all [beqDoc]
  | JDoc.arr xs, b, h => by
    cases b <;> simp [beqDoc] at h
    rename_i ys
    rw [eq_of_beqDocs xs ys h]
  | JDoc.obj xs, b, h => by
    cases b <;> simp [beqDoc] at h
    rename_i ys
    rw [eq_of_beqMembers xs ys h]
/-- Lists that `beqDocs` accepts are equal. -/
theorem eq_of_beqDocs : ∀ xs ys : List JDoc, beqDocs xs ys = true → xs = ys
  | [], ys, h => by cases ys <;> simp_all [beqDocs]
  | x :: xs, ys, h => by
    cases ys with
    | nil => simp [beqDocs] at h
    | cons y ys =>
      simp [beqDocs] at h
      rw [eq_of_beqDoc x y h.1, eq_of_beqDocs xs ys h.2]
/-- Member lists that `beqMembers` accepts are equal. -/
theorem eq_of_beqMembers : ∀ xs ys : List (Str × JDoc), beqMembers xs ys = true → xs = ys
  | [], ys, h => by cases ys <;> simp_all [beqMembers]
  | (k, x) :: xs, ys, h => by
    cases ys with
    | nil => simp [beqMembers] at h
    | cons e ys =>
      obtain ⟨l, y⟩ := e
      simp [beqMembers] at h
      rw [h.1, eq_of_beqDoc x y h.2.1, eq_of_beqMembers xs ys h.2.2]
end

mutual
/-- Every document is `beqDoc` to itself. -/
theorem beqDoc_self : ∀ a : JDoc, beqDoc a a = true
  | JDoc.null => by simp [beqDoc]
  | JDoc.bool x => by simp [beqDoc]
  | JDoc.num x => by simp [beqDoc]
  | JDoc.str x => by simp [beqDoc]
  | JDoc.arr xs => by simp [beqDoc, beqDocs_self xs]
  | JDoc.obj xs => by simp [beqDoc, beqMembers_self xs]
/-- Every list is `beqDocs` to itself. -/
theorem beqDocs_self : ∀ xs : List JDoc, beqDocs xs xs = true
  | [] => by simp [beqDocs]
  | x :: xs => by simp [beqDocs, beqDoc_self x, beqDocs_self xs]
/-- Every member list is `beqMembers` to itself. -/
theorem beqMembers_self : ∀ xs : List (Str × JDoc), beqMembers xs xs = true
  | [] => by simp [beqMembers]
  | (k, x) :: xs => by simp [beqMembers, beqDoc_self x, beqMembers_self xs]
end

instance : DecidableEq JDoc := fun a b =>
  if h : beqDoc a b = true then isTrue (eq_of_beqDoc a b h)
  else isFalse (fun e => h (e ▸ beqDoc_self a))

mutual
/-- Boolean equality of JSON values. -/
def JValue.beq : JValue → JValue → Bool
  | JValue.null, JValue.null => true
  | JValue.bool a, JValue.bool b => decide (a = b)
  | JValue.num a, JValue.num b => decide (a = b)
  | JValue.str a, JValue.str b => decide (a = b)
  | JValue.arr xs, JValue.arr ys => beqItems xs ys
  | JValue.obj xs, JValue.obj ys => beqEntries xs ys
  | _, _ => false
/-- Boolean equality of lists of JSON values. -/
def beqItems : List JValue → List JValue → Bool
  | [], [] => true
  | x :: xs, y :: ys => JValue.beq x y && beqItems xs ys
  | _, _ => false
/-- Boolean equality of lists of map entries. -/
def beqEntries : JMap → JMap → Bool
  | [], [] => true
  | (k, x) :: xs, (l, y) :: ys => decide (k = l) && (JValue.beq x y && beqEntries xs ys)
  | _, _ => false
end

mutual
/-- Values that `JValue.beq` accepts are equal. -/
theorem JValue.eq_of_beq : ∀ a b : JValue, JValue.beq a b = true → a = b
  | JValue.null, b, h => by cases b <;> simp_all [JValue.beq]
  | JValue.bool x, b, h => by cases b <;> simp_all [JValue.beq]
  | JValue.num x, b, h => by cases b <;> simp_all [JValue.beq]
  | JValue.str x, b, h => by cases b <;> simp_all [JValue.beq]
  | JValue.arr xs, b, h => by
    cases b <;> simp [JValue.beq] at h
    rename_i ys
    rw [eq_of_beqItems xs ys h]
  | JValue.obj xs, b, h => by
    cases b <;> simp [JValue.beq] at h
    rename_i ys
    rw [eq_of_beqEntries xs ys h]
/-- Lists that `beqItems` accepts are equal. -/
theorem eq_of_beqItems : ∀ xs ys : List JValue, beqItems xs ys = true → xs = ys
  | [], ys, h => by cases ys <;> simp_all [beqItems]
  | x :: xs, ys, h => by
    cases ys with
    | nil => simp [beqItems] at h
    | cons y ys =>
      simp [beqItems] at h
      rw [JValue.eq_of_beq x y h.1, eq_of_beqItems xs ys h.2]
/-- Entry lists that `beqEntries` accepts are equal. -/
theorem eq_of_beqEntries : ∀ xs ys : JMap, beqEntries xs ys = true → xs = ys
  | [], ys, h => by cases ys <;> simp_all [beqEntries]
  | (k, x) :: xs, ys, h => by
    cases ys with
    | nil => simp [beqEntries] at h
    | cons e ys =>
      obtain ⟨l, y⟩ := e
      simp [beqEntries] at h
      rw [h.1, JValue.eq_of_beq x y h.2.1, eq_of_beqEntries xs ys h.2.2]
end

mutual
/-- Every value is `JValue.beq` to itself. -/
theorem JValue.beq_self : ∀ a : JValue, JValue.beq a a = true
  | JValue.null => by simp [JValue.beq]
  | JValue.bool x => by simp [JValue.beq]
  | JValue.num x => by simp [JValue.beq]
  | JValue.str x => by simp [JValue.beq]
  | JValue.arr xs => by simp [JValue.beq, beqItems_self xs]
  | JValue.obj xs => by simp [JValue.beq, beqEntries_self xs]
/-- Every list is `beqItems` to itself. -/
theorem beqItems_self : ∀ xs : List JValue, beqItems xs xs = true
  | [] => by simp [beqItems]
  | x :: xs => by simp [beqItems, JValue.beq_self x, beqItems_self xs]
/-- Every entry list is `beqEntries` to itself. -/
theorem beqEntries_self : ∀ xs : JMap, beqEntries xs xs = true
  | [] => by simp [beqEntries]
  | (k, x) :: xs => by simp [beqEntries, JValue.beq_self x, beqEntries_self xs]
end

instance : DecidableEq JValue := fun a b =>
  if h : JValue.beq a b = true then isTrue (JValue.eq_of_beq a b h)
  else isFalse (fun e => h (e ▸ JValue.beq_self a))

deriving instance DecidableEq for Except

/-! ## Time values and the RFC 3339 codec of package `time` -/

/-- A `time.Time`: the calendar date and clock reading in the zone the value
carries, and that zone's offset in seconds east of UTC.  The instant is
determined by these fields. -/
structure Time where
  year : Nat
  month : Nat
  day : Nat
  hour : Nat
  minute : Nat
  second : Nat
  nanosecond : Nat
  offset : Int
  deriving DecidableEq

/-- The zero `time.Time{}`: January 1, year 1, 00:00:00 UTC. -/
def Time.zero : Time := ⟨1, 1, 1, 0, 0, 0, 0, 0⟩

/-- Leap years of the Gregorian calendar. -/
def isLeap (year : Nat) : Bool :=
  year % 4 = 0 && (year % 100 ≠ 0 || year % 400 = 0)

/-- Number of days of a month. -/
def daysIn (month year : Nat) : Nat :=
  if month = 2 then (if isLeap year then 29 else 28)
  else if month = 4 ∨ month = 6 ∨ month = 9 ∨ month = 11 then 30
  else 31

/-- The digit value of a character. -/
def digitOf (c : Char) : Nat := c.toNat - 48

/-- The function `getnum` of `time`: a number of two digits, or of one digit
when the field is not of fixed width. -/
def getnum (fixed : Bool) : Str → Option (Nat × Str)
  | [] => none
  | [c] => if isDigit c && !fixed then some (digitOf c, []) else none
  | c :: d :: rest =>
    if isDigit c then
      if isDigit d then some (digitOf c * 10 + digitOf d, rest)
      else if fixed then none
      else some (digitOf c, d :: rest)
    else none

/-- Consumes one expected character of the layout. -/
def expectChar (c : Char) : Str → Option Str
  | [] => none
  | d :: rest => if d = c then some rest else none

/-- The four-digit year of the layout element `2006`. -/
def parseYear : Str → Option (Nat × Str)
  | a :: b :: c :: d :: rest =>
    if isDigit a && isDigit b && isDigit c && isDigit d then
      some (digitsVal [a, b, c, d], rest)
    else none
  | _ => none

/-- Multiplies by ten `k` times. -/
def scaleBy10 : Nat → Nat → Nat
  | 0, n => n
  | k + 1, n => scaleBy10 k (n * 10)

/-- The optional fractional second of the layout element `.999999999`: a
period or a comma and at least one digit; digits past the ninth are dropped. -/
def parseFraction : Str → Nat × Str
  | [] => (0, [])
  | [c] => (0, [c])
  | sep :: d :: rest =>
    if (sep = '.' ∨ sep = ',') ∧ isDigit d = true then
      let ds := (spanDigits (d :: rest)).1
      let kept := ds.take 9
      (scaleBy10 (9 - kept.length) (digitsVal kept), (spanDigits (d :: rest)).2)
    else (0, sep :: d :: rest)

/-- The zone of the layout element `Z07:00`: `Z` or a sign, two digits, a
colon and two digits.  Offsets of up to 24 hours and 60 minutes are accepted
(the range test of `time.Parse` since Go 1.20). -/
def parseZone : Str → Option (Int × Str)
  | [] => none
  | sign :: value =>
    if sign = 'Z' then some (0, value)
    else
      match value with
      | h1 :: h2 :: colon :: m1 :: m2 :: rest =>
        if colon = ':' ∧ isDigit h1 = true ∧ isDigit h2 = true ∧ isDigit m1 = true
            ∧ isDigit m2 = true then
          let hr := digitOf h1 * 10 + digitOf h2
          let mm := digitOf m1 * 10 + digitOf m2
          if hr > 24 ∨ mm > 60 then none
          else if sign = '+' then some ((((hr * 60 + mm) * 60 : Nat) : Int), rest)
          else if sign = '-' then some (-(((hr * 60 + mm) * 60 : Nat) : Int), rest)
          else none
        else none
      | _ => none

/-- The call `time.Parse(time.RFC3339Nano, value)`, layout
`2006-01-02T15:04:05.999999999Z07:00`. -/
def timeParse (value : Str) : Option Time :=
  match parseYear value with
  | none => none
  | some (year, v1) =>
  match (expectChar '-' v1).bind (getnum true) with
  | none => none
  | some (month, v2) =>
  if month = 0 ∨ 12 < month then none else
  match (expectChar '-' v2).bind (getnum true) with
  | none => none
  | some (day, v3) =>
  match (expectChar 'T' v3).bind (getnum false) with
  | none => none
  | some (hour, v4) =>
  if 24 ≤ hour then none else
  match (expectChar ':' v4).bind (getnum true) with
  | none => none
  | some (minute, v5) =>
  if 60 ≤ minute then none else
  match (expectChar ':' v5).bind (getnum true) with
  | none => none
  | some (second, v6) =>
  if 60 ≤ second then none else
  match parseZone (parseFraction v6).2 with
  | none => none
  | some (offset, v8) =>
  if v8 ≠ [] then none
  else if day < 1 ∨ daysIn month year < day then none
  else some ⟨year, month, day, hour, minute, second, (parseFraction v6).1, offset⟩

/-- The decimal digit `d % 10` as a character. -/
def digitChar (d : Nat) : Char := Char.ofNat (48 + d % 10)

/-- The last `width` decimal digits of a number, most significant first. -/
def fixedDigits : Nat → Nat → Str
  | 0, _ => []
  | width + 1, x => fixedDigits width (x / 10) ++ [digitChar x]

/-- The function `appendInt` of `time` for a number that is not negative:
its decimal digits, padded with zeros to the width. -/
def appendInt (x width : Nat) : Str :=
  if x < 10 ^ width then fixedDigits width x else Nat.toDigits 10 x

/-- Removes the trailing zeros of a run of digits. -/
def trimZeros : Str → Str
  | [] => []
  | c :: cs => if trimZeros cs = [] ∧ c = '0' then [] else c :: trimZeros cs

/-- The function `appendNano` for the layout element `.999999999`: nothing for
a whole second, else a period and the nine digits without trailing zeros. -/
def appendNano (nanosecond : Nat) : Str :=
  if nanosecond = 0 then [] else '.' :: trimZeros (appendInt nanosecond 9)

/-- The zone as the layout element `Z07:00` formats it. -/
def formatZone (offset : Int) : Str :=
  if offset = 0 then ['Z']
  else
    let zone := offset.natAbs / 60
    (if offset < 0 ∧ zone ≠ 0 then '-' else '+') ::
      (appendInt (zone / 60) 2 ++ ':' :: appendInt (zone % 60) 2)

/-- The call `t.Format(time.RFC3339Nano)`. -/
def timeFormat (t : Time) : Str :=
  appendInt t.year 4 ++ ('-' :: (appendInt t.month 2 ++ ('-' :: (appendInt t.day 2 ++
    ('T' :: (appendInt t.hour 2 ++ (':' :: (appendInt t.minute 2 ++
      (':' :: (appendInt t.second 2 ++ (appendNano t.nanosecond
        ++ formatZone t.offset)))))))))))

/-- The method `Time.MarshalJSON` (Go 1.20 and later): the RFC 3339 text with
nanoseconds, and an error for a year past 9999 or a zone offset of 24 hours or
more, which RFC 3339 cannot write. -/
def timeMarshalJSON (t : Time) : Option Str :=
  if 9999 < t.year then none
  else if 24 ≤ t.offset.natAbs / 60 / 60 then none
  else some (timeFormat t)

/-- The outcome of `http.Post`: a transport error, or a response with its
status code. -/
inductive PostResult where
  | transportError : PostResult
  | response (statusCode : Nat) : PostResult
  deriving DecidableEq

/-- The constant `http.StatusOK`. -/
def StatusOK : Nat := 200

/-- The constant `http.StatusBadRequest`. -/
def StatusBadRequest : Nat := 400

/-- The constant `http.StatusInternalServerError`. -/
def StatusInternalServerError : Nat := 500

/-- A call to an external service, recorded with its outcome. -/
inductive Call where
  /-- The call `http.Post(url, "application/json", body)`; the body is
  recorded as the JSON document it writes. -/
  | post (url : Str) (body : JValue) (result : PostResult) : Call
  /-- The call `svc.DeleteMessage` with its `QueueUrl` and `ReceiptHandle`;
  `ok` is false when it returned an error. -/
  | deleteMessage (queueURL receiptHandle : Str) (ok : Bool) : Call
  /-- The call `snsClient.ConfirmSubscription` with its `Token` and
  `TopicArn`; `ok` is false when it returned an error. -/
  | confirmSubscription (token topicArn : Str) (ok : Bool) : Call
  deriving DecidableEq

/-- The environment of the process: the variable `REDIRECT_URL`, and how each
service answers a call, given the calls made before it. -/
structure World where
  redirectURL : Str
  httpPost : List Call → Str → JValue → PostResult
  sqsDeleteMessage : List Call → Str → Str → Bool
  snsConfirmSubscription : List Call → Str → Str → Bool

/-- A function that may end the process through `log.Fatalf`. -/
inductive Run (α : Type) where
  | returns (a : α) : Run α
  | exits : Run α
  deriving DecidableEq

/-! ## `src/main.go`: the queue consumer -/

/-- The struct `MessageFormat`. -/
structure MessageFormat where
  Message : Str
  Timestamp : Time
  deriving DecidableEq

/-- The zero value `MessageFormat{}`. -/
def MessageFormat.zero : MessageFormat := ⟨[], Time.zero⟩

/-- The call `json.Marshal(msg)` for a `MessageFormat`: an object with the
fields `message` and `timestamp`, an error when the time cannot be written. -/
def marshalMessageFormat (msg : MessageFormat) : Option JValue :=
  match timeMarshalJSON msg.Timestamp with
  | none => none
  | some ts =>
    some (JValue.obj [("message".toList, JValue.str msg.Message),
      ("timestamp".toList, JValue.str ts)])

/-- The key `"Message"` of a queue body. -/
def keyMessage : Str := "Message".toList

/-- The key `"Timestamp"` of a queue body. -/
def keyTimestamp : Str := "Timestamp".toList

/-- The expression `body[key].(string)`: the string stored under the key, if
there is one.  Indexing the nil map yields nil. -/
def stringField (body : Option JMap) (key : Str) : Option Str :=
  match body with
  | none => none
  | some entries =>
    match getEntry entries key with
    | some (JValue.str s) => some s
    | _ => none

/-- The function `formatSQSMessages`. -/
def formatSQSMessages (msgBody : Str) : Run MessageFormat :=
  match unmarshalMap msgBody with
  | Except.error _ => Run.returns MessageFormat.zero
  | Except.ok body =>
    match stringField body keyMessage with
    | none => Run.returns MessageFormat.zero
    | some message =>
      match stringField body keyTimestamp with
      | none => Run.returns MessageFormat.zero
      | some timestampStr =>
        match timeParse timestampStr with
        | none => Run.returns MessageFormat.zero
        | some timestamp =>
          match marshalMessageFormat ⟨message, timestamp⟩ with
          | none => Run.exits
          | some _ => Run.returns ⟨message, timestamp⟩

/-- The function `sendLogEntry`, after the calls `hist`: whether it returned
nil, and the calls it made. -/
def sendLogEntry (w : World) (hist : List Call) (msg : MessageFormat) : Bool × List Call :=
  match marshalMessageFormat msg with
  | none => (false, [])
  | some msgJSON =>
    match w.httpPost hist w.redirectURL msgJSON with
    | PostResult.transportError =>
      (false, [Call.post w.redirectURL msgJSON PostResult.transportError])
    | PostResult.response statusCode =>
      if statusCode ≠ StatusOK then
        (false, [Call.post w.redirectURL msgJSON (PostResult.response statusCode)])
      else (true, [Call.post w.redirectURL msgJSON (PostResult.response statusCode)])

/-- A message of the `ReceiveMessage` response. -/
structure SqsMessage where
  Body : Str
  ReceiptHandle : Str
  MessageId : Str
  deriving DecidableEq

/-- The body of the loop over `resp.Messages` in `listenSQSMessages`, for one
message after the calls `hist`: the calls made for this message, or the end
of the process. -/
def processMessage (w : World) (queueURL : Str) (hist : List Call) (msg : SqsMessage) :
    Run (List Call) :=
  match formatSQSMessages msg.Body with
  | Run.exits => Run.exits
  | Run.returns formattedMessage =>
    match sendLogEntry w hist formattedMessage with
    | (false, sent) => Run.returns sent
    | (true, sent) =>
      Run.returns (sent ++ [Call.deleteMessage queueURL msg.ReceiptHandle
        (w.sqsDeleteMessage (hist ++ sent) queueURL msg.ReceiptHandle)])

/-- The loop over `resp.Messages`: for each message in order, the calls made
for it.  When the process ends at a message, that message and the ones after
it have no entry. -/
def processMessages (w : World) (queueURL : Str) : List Call → List SqsMessage → List (List Call)
  | _, [] => []
  | hist, msg :: rest =>
    match processMessage w queueURL hist msg with
    | Run.exits => []
    | Run.returns calls => calls :: processMessages w queueURL (hist ++ calls) rest

/-- One cycle of the loop of `listenSQSMessages`, given what `ReceiveMessage`
returned (`none` for an error, which is logged): the calls made for each
received message. -/
def pollCycle (w : World) (queueURL : Str) (hist : List Call) :
    Option (List SqsMessage) → List (List Call)
  | none => []
  | some messages => processMessages w queueURL hist messages

/-- The calls made for the message at position `i` of the response. -/
def callsFor (perMessage : List (List Call)) (i : Nat) : List Call :=
  perMessage.getD i []

/-- The `DeleteMessage` calls among some calls: queue URL and receipt handle. -/
def deleteCalls : List Call → List (Str × Str)
  | [] => []
  | Call.deleteMessage queueURL receiptHandle _ :: rest =>
    (queueURL, receiptHandle) :: deleteCalls rest
  | _ :: rest => deleteCalls rest

/-- The forward calls among some calls: the body posted and the outcome. -/
def postCalls : List Call → List (JValue × PostResult)
  | [] => []
  | Call.post _ body result :: rest => (body, result) :: postCalls rest
  | _ :: rest => postCalls rest

/-- The `ConfirmSubscription` calls among some calls: token and topic. -/
def confirmCalls : List Call → List (Str × Str)
  | [] => []
  | Call.confirmSubscription token topicArn _ :: rest =>
    (token, topicArn) :: confirmCalls rest
  | _ :: rest => confirmCalls rest

/-! ## `src/aws/sns_handler.go`: the webhook -/

/-- The struct `snsMessage`.  Its field `Type` is written `Type_`, and `Body`
is the raw JSON text of the field `Message` of the envelope. -/
structure snsMessage where
  Type_ : Str
  Token : Str
  TopicArn : Str
  Body : Str
  deriving DecidableEq

/-- The envelope type of a subscription handshake. -/
def SubscriptionConfirmation : Str := "SubscriptionConfirmation".toList

/-- The envelope type of a delivery. -/
def Notification : Str := "Notification".toList

/-- The function `strings.HasPrefix`. -/
def HasPrefix (s pre : Str) : Bool := pre.isPrefixOf s

/-- The function `strings.HasSuffix`. -/
def HasSuffix (s suf : Str) : Bool := suf.isSuffixOf s

/-- The function `parseBody`; `none` is the nil map. -/
def parseBody (body : Str) : Except UnmarshalError (Option JMap) :=
  match unmarshalMap body with
  | Except.ok parsedData => Except.ok parsedData
  | Except.error _ =>
    match unmarshalString body with
    | Except.error err => Except.error err
    | Except.ok bodyStr =>
      match unmarshalMap bodyStr with
      | Except.error err => Except.error err
      | Except.ok parsedData => Except.ok parsedData

/-- The function `sendDataToServer` for a decoded map, after the calls
`hist`: whether it returned nil, and the calls it made.  Marshalling a map
that was decoded from JSON does not fail. -/
def sendDataToServer (w : World) (hist : List Call) (data : Option JMap) : Bool × List Call :=
  let jsonData := marshalMap data
  match w.httpPost hist w.redirectURL jsonData with
  | PostResult.transportError =>
    (false, [Call.post w.redirectURL jsonData PostResult.transportError])
  | PostResult.response statusCode =>
    if statusCode ≠ StatusOK then
      (false, [Call.post w.redirectURL jsonData (PostResult.response statusCode)])
    else (true, [Call.post w.redirectURL jsonData (PostResult.response statusCode)])

/-- The slicing of `processSnsNotification`: the raw body without its first
and last character when it starts with a quote and an opening brace and ends
with a quote and a closing brace. -/
def stripQuotes (messageBody : Str) : Str :=
  if HasPrefix messageBody ['"', '{'] && HasSuffix messageBody ['"', '}'] then
    (messageBody.take (messageBody.length - 1)).drop 1
  else messageBody

/-- The method `processSnsNotification`: the calls it makes. -/
def processSnsNotification (w : World) (hist : List Call) (m : snsMessage) : List Call :=
  match parseBody (stripQuotes m.Body) with
  | Except.error _ => []
  | Except.ok parsedData => (sendDataToServer w hist parsedData).2

/-- The method `handleSubscriptionConfirmation`: whether it returned nil, and
the calls it made. -/
def handleSubscriptionConfirmation (w : World) (hist : List Call) (m : snsMessage) :
    Bool × List Call :=
  let ok := w.snsConfirmSubscription hist m.Token m.TopicArn
  (ok, [Call.confirmSubscription m.Token m.TopicArn ok])

/-- A response written with `c.JSON(status, gin.H{key: text})`. -/
structure Response where
  status : Nat
  key : Str
  text : Str
  deriving DecidableEq

/-- The method `HandleSNSNotification`, given the outcome of decoding the
request body into an `snsMessage` (`none` for an error): the calls made and
the responses written, in order. -/
def HandleSNSNotification (w : World) (hist : List Call) (decoded : Option snsMessage) :
    List Call × List Response :=
  match decoded with
  | none => ([], [⟨StatusBadRequest, "error".toList, "Bad Request".toList⟩])
  | some m =>
    let acknowledge : Response :=
      ⟨StatusOK, "message".toList, "Received SNS message".toList⟩
    if m.Type_ = SubscriptionConfirmation then
      match handleSubscriptionConfirmation w hist m with
      | (false, calls) =>
        (calls, [⟨StatusInternalServerError, "error".toList, "Internal Server Error".toList⟩])
      | (true, calls) => (calls, [acknowledge])
    else if m.Type_ = Notification then
      (processSnsNotification w hist m, [acknowledge])
    else ([], [⟨StatusBadRequest, "error".toList, "Unknown Message Type".toList⟩])

/-! ## Notions of the specification -/

/-- The status of the webhook's response as the specification words it: 400
for a body that does not decode or a type that is neither
`SubscriptionConfirmation` nor `Notification`, 500 for a confirmation whose
call fails, 200 in every other case. -/
def specStatus (w : World) (hist : List Call) : Option snsMessage → Nat
  | none => 400
  | some m =>
    if m.Type_ ≠ SubscriptionConfirmation ∧ m.Type_ ≠ Notification then 400
    else if m.Type_ = SubscriptionConfirmation
        ∧ w.snsConfirmSubscription hist m.Token m.TopicArn = false then 500
    else 200

/-- The member of a name among the members of an object; of members with
the same name, the last one. -/
def memberOf : List (Str × JDoc) → Str → Option JDoc
  | [], _ => none
  | (k0, d0) :: rest, k =>
    match memberOf rest k with
    | some d => some d
    | none => if k0 = k then some d0 else none

/-- The message and the instant of a queue body as the specification reads
it: the body is the text of a JSON object with a string `Message` and a
string `Timestamp` that parses as RFC 3339 with nanoseconds.  `none` for any
other body.  What the other members of the object are is not looked at. -/
def normalized (body : Str) : Option (Str × Time) :=
  match parseJSON body with
  | some (JDoc.obj members) =>
    match memberOf members keyMessage, memberOf members keyTimestamp with
    | some (JDoc.str message), some (JDoc.str timestampStr) =>
      match timeParse timestampStr with
      | some t => some (message, t)
      | none => none
    | _, _ => none
  | _ => none

/-- Whether a `float64` is exactly the number a JSON text writes: the same
sign, and `mantissa * 2 ^ exponent = digits * 10 ^ exponent`. -/
def sameNumber (f : Float64) (n : Decimal) : Bool :=
  decide (f.negative = n.negative)
    && decide (f.mantissa * 2 ^ f.exponent.toNat * 10 ^ (-n.exponent).toNat
      = n.digits * 10 ^ n.exponent.toNat * 2 ^ (-f.exponent).toNat)

mutual
/-- Whether every number of a document rounds to a finite `float64`. -/
def inFloat64Range : JDoc → Bool
  | JDoc.num n => (ParseFloat n).isSome
  | JDoc.arr items => itemsInRange items
  | JDoc.obj members => membersInRange members
  | _ => true
/-- Whether `inFloat64Range` holds of every element of an array. -/
def itemsInRange : List JDoc → Bool
  | [] => true
  | d :: ds => inFloat64Range d && itemsInRange ds
/-- Whether `inFloat64Range` holds of every member of an object. -/
def membersInRange : List (Str × JDoc) → Bool
  | [] => true
  | (_, d) :: ms => inFloat64Range d && membersInRange ms
end

/-- Whether no member of a list has the name `k`. -/
def nameFree (k : Str) : List (Str × JDoc) → Bool
  | [] => true
  | (l, _) :: ms => decide (l ≠ k) && nameFree k ms

/-- Whether the members of an object have distinct names. -/
def namesDistinct : List (Str × JDoc) → Bool
  | [] => true
  | (k, _) :: ms => nameFree k ms && namesDistinct ms

mutual
/-- Whether every number of a document is a `float64`, and the members of
each of its objects have distinct names. -/
def float64Document : JDoc → Bool
  | JDoc.num n =>
    match ParseFloat n with
    | some f => sameNumber f n
    | none => false
  | JDoc.arr items => float64Items items
  | JDoc.obj members => namesDistinct members && float64Members members
  | _ => true
/-- Whether `float64Document` holds of every element of an array. -/
def float64Items : List JDoc → Bool
  | [] => true
  | d :: ds => float64Document d && float64Items ds
/-- Whether `float64Document` holds of every member of an object. -/
def float64Members : List (Str × JDoc) → Bool
  | [] => true
  | (_, d) :: ms => float64Document d && float64Members ms
end

mutual
/-- Whether a Go value is exactly a JSON document: the same shape, the same
strings, every `float64` exactly the number the text writes, the entries of a
map the members of the object. -/
def isExactly : JValue → JDoc → Bool
  | JValue.null, JDoc.null => true
  | JValue.bool a, JDoc.bool b => decide (a = b)
  | JValue.num f, JDoc.num n => sameNumber f n
  | JValue.str a, JDoc.str b => decide (a = b)
  | JValue.arr vs, JDoc.arr ds => itemsExactly vs ds
  | JValue.obj es, JDoc.obj ms => entriesExactly es ms
  | _, _ => false
/-- Whether the elements of a slice are exactly the elements of an array. -/
def itemsExactly : List JValue → List JDoc → Bool
  | [], [] => true
  | v :: vs, d :: ds => isExactly v d && itemsExactly vs ds
  | _, _ => false
/-- Whether the entries of a map are exactly the members of an object. -/
def entriesExactly : JMap → List (Str × JDoc) → Bool
  | [], [] => true
  | (k, v) :: es, (l, d) :: ms => decide (k = l) && (isExactly v d && entriesExactly es ms)
  | _, _ => false
end

/-- The lower-case hexadecimal digit of a number below 16. -/
def lowerHex (n : Nat) : Char :=
  if n < 10 then Char.ofNat (48 + n) else Char.ofNat (87 + n)

/-- A character as it is written inside a JSON string literal: a control
character as a `\u` escape, a quote and a backslash behind a backslash. -/
def escapeChar (c : Char) : Str :=
  if c.toNat < 32 then
    '\\' :: 'u' :: '0' :: '0' :: [lowerHex (c.toNat / 16), lowerHex (c.toNat % 16)]
  else if c = '"' ∨ c = '\\' then ['\\', c]
  else [c]

/-- A text as it is written inside a JSON string literal. -/
def escapeText : Str → Str
  | [] => []
  | c :: cs => escapeChar c ++ escapeText cs

/-- The JSON string literal whose content is the given text. -/
def jsonStringLiteral (s : Str) : Str := '"' :: (escapeText s ++ ['"'])

/-! ## Worlds and inputs of the examples -/

/-- A world whose sink gives the same answer to every call, whose
`DeleteMessage` succeeds and whose `ConfirmSubscription` answers `confirmed`. -/
def steadyWorld (sink : PostResult) (confirmed : Bool) : World :=
  ⟨"http://sink/logs".toList, fun _ _ _ => sink, fun _ _ _ => true, fun _ _ _ => confirmed⟩

/-- A world whose sink accepts the first call made in it with status 200 and
answers 503 once any call has been made; `DeleteMessage` and
`ConfirmSubscription` succeed. -/
def flakyWorld : World :=
  ⟨"http://sink/logs".toList,
    fun hist _ _ => if hist = [] then PostResult.response 200 else PostResult.response 503,
    fun _ _ _ => true, fun _ _ _ => true⟩

/-- A queue body with the two fields of the specification's example. -/
def bodyHi : Str :=
  "\x7b\"Message\":\"hi\",\"Timestamp\":\"2024-01-01T00:00:00.000000000Z\"\x7d".toList

/-- The JSON document forwarded for `bodyHi`. -/
def forwardedHi : JValue :=
  JValue.obj [("message".toList, JValue.str "hi".toList),
    ("timestamp".toList, JValue.str "2024-01-01T00:00:00Z".toList)]

/-- A queue body without the field `Message`. -/
def bodyNoMessage : Str :=
  "\x7b\"Timestamp\":\"2024-01-01T00:00:00Z\"\x7d".toList

/-- A queue body without the field `Timestamp`. -/
def bodyNoTimestamp : Str := "\x7b\"Message\":\"hi\"\x7d".toList

/-- A queue body whose `Timestamp` is not an RFC 3339 time. -/
def bodyBadTimestamp : Str :=
  "\x7b\"Message\":\"hi\",\"Timestamp\":\"yesterday\"\x7d".toList

/-- The raw `Message` that is the JSON text of the object with `a` = 1. -/
def rawObject : Str := "\x7b\"a\":1\x7d".toList

/-- The raw `Message` that is a JSON string holding the text of `rawObject`. -/
def rawQuoted : Str := "\"\x7b\\\"a\\\":1\x7d\"".toList

/-- The raw `Message` that is a JSON string holding the text of `rawQuoted`:
the object quoted twice. -/
def rawQuotedTwice : Str := "\"\\\"\x7b\\\\\\\"a\\\\\\\":1\x7d\\\"\"".toList

/-- The `float64` 1. -/
def float1 : Float64 := ⟨false, 4503599627370496, -52⟩

/-- The map with the one entry `a` = 1. -/
def mapA1 : JMap := [("a".toList, JValue.num float1)]

/-- The members of the object with `a` = 1, as its text writes them. -/
def membersA1 : List (Str × JDoc) := [("a".toList, JDoc.num ⟨false, 1, 0⟩)]

/-- The `float64` `2^53`. -/
def float2p53 : Float64 := ⟨false, 4503599627370496, 1⟩

/-- A notification envelope with the given raw `Message`. -/
def notificationOf (raw : Str) : snsMessage :=
  ⟨Notification, [], "arn:aws:sns:topic".toList, raw⟩

/-- The response that acknowledges an envelope. -/
def acknowledged : Response := ⟨200, "message".toList, "Received SNS message".toList⟩

/-- The JSON document of the zero `MessageFormat{}`. -/
def forwardedZero : JValue :=
  JValue.obj [("message".toList, JValue.str []),
    ("timestamp".toList, JValue.str "0001-01-01T00:00:00Z".toList)]

/-! ## Theorems -/

/-! ### What the decoder stores for a document -/

/-- The conversion `ParseFloat` on some numbers: 1 and 0.1; `2^53 + 1`, a tie
that goes to the even `2^53`; the largest `float64`, and the first number that
rounds beyond it; 1e400, which is out of range; the smallest subnormal
number; 1e-400, which rounds to zero; and minus zero. -/
theorem ParseFloat_examples :
    ParseFloat ⟨false, 1, 0⟩ = some float1
      ∧ ParseFloat ⟨false, 1, -1⟩ = some ⟨false, 7205759403792794, -56⟩
      ∧ ParseFloat ⟨false, 9007199254740993, 0⟩ = some float2p53
      ∧ ParseFloat ⟨false, 17976931348623157, 292⟩ = some ⟨false, 9007199254740991, 971⟩
      ∧ ParseFloat ⟨false, 17976931348623158, 292⟩ = some ⟨false, 9007199254740991, 971⟩
      ∧ ParseFloat ⟨false, 17976931348623159, 292⟩ = none
      ∧ ParseFloat ⟨false, 1, 400⟩ = none
      ∧ ParseFloat ⟨false, 5, -324⟩ = some ⟨false, 1, -1074⟩
      ∧ ParseFloat ⟨false, 1, -400⟩ = some ⟨false, 0, -1074⟩
      ∧ ParseFloat ⟨true, 0, 0⟩ = some ⟨true, 0, -1074⟩ := by
  decide!

mutual
/-- A document is stored without error if and only if its numbers are in the
`float64` range. -/
theorem valueInterface_isSome : ∀ d : JDoc, (valueInterface d).isSome = inFloat64Range d
  | JDoc.null => rfl
  | JDoc.bool _ => rfl
  | JDoc.str _ => rfl
  | JDoc.num n => by
    simp only [valueInterface, inFloat64Range]
    cases ParseFloat n <;> rfl
  | JDoc.arr ds => by
    have ih := arrayInterface_isSome ds
    simp only [valueInterface, inFloat64Range]
    cases h : arrayInterface ds with
    | none => rw [h] at ih; simpa using ih
    | some vs => rw [h] at ih; simpa using ih
  | JDoc.obj ms => by
    have ih := objectInterface_isSome ms []
    simp only [valueInterface, inFloat64Range]
    cases h : objectInterface ms [] with
    | none => rw [h] at ih; simpa using ih
    | some es => rw [h] at ih; simpa using ih
/-- The elements of an array are stored without error if and only if their
numbers are in the `float64` range. -/
theorem arrayInterface_isSome : ∀ ds : List JDoc, (arrayInterface ds).isSome = itemsInRange ds
  | [] => rfl
  | d :: ds => by
    have ih1 := valueInterface_isSome d
    have ih2 := arrayInterface_isSome ds
    simp only [arrayInterface, itemsInRange]
    cases h1 : valueInterface d with
    | none => rw [h1] at ih1; simp [← ih1]
    | some v =>
      rw [h1] at ih1
      cases h2 : arrayInterface ds with
      | none => rw [h2] at ih2; simp [← ih1, ← ih2]
      | some vs => rw [h2] at ih2; simp [← ih1, ← ih2]
/-- The members of an object are stored without error if and only if their
numbers are in the `float64` range. -/
theorem objectInterface_isSome : ∀ (ms : List (Str × JDoc)) (acc : JMap),
    (objectInterface ms acc).isSome = membersInRange ms
  | [], _ => rfl
  | (k, d) :: ms, acc => by
    have ih1 := valueInterface_isSome d
    simp only [objectInterface, membersInRange]
    cases h1 : valueInterface d with
    | none => rw [h1] at ih1; simp [← ih1]
    | some v =>
      rw [h1] at ih1
      simp only [← ih1, Option.isSome_some, Bool.true_and]
      exact objectInterface_isSome ms (setEntry acc k v)
end

/-- When the decoder returns an error for a document: exactly when the
document is nested deeper than `maxNestingDepth` or holds a number outside the
`float64` range. -/
theorem decodeDocument_eq_none_iff (doc : JDoc) :
    decodeDocument doc = none
      ↔ (maxNestingDepth < nesting doc ∨ inFloat64Range doc = false) := by
  have hv := valueInterface_isSome doc
  unfold decodeDocument
  by_cases hd : maxNestingDepth < nesting doc
  · simp [hd]
  · simp only [hd, if_false, false_or]
    cases hvi : valueInterface doc with
    | none => rw [hvi] at hv; simpa using hv.symm
    | some v => rw [hvi] at hv; simp [← hv]

/-- When `Unmarshal` returns an error for a JSON text: exactly when its
document is nested deeper than `maxNestingDepth` or holds a number outside the
`float64` range. -/
theorem decodeText_eq_none_iff (data : Str) (doc : JDoc) (h : parseJSON data = some doc) :
    decodeText data = none
      ↔ (maxNestingDepth < nesting doc ∨ inFloat64Range doc = false) := by
  unfold decodeText
  simp only [h]
  exact decodeDocument_eq_none_iff doc

/-- Assigning a key that the map does not hold adds an entry at its end. -/
theorem setEntry_append (acc : JMap) (k : Str) (v : JValue) (h : ∀ e ∈ acc, e.1 ≠ k) :
    setEntry acc k v = acc ++ [(k, v)] := by
  induction acc with
  | nil => rfl
  | cons e rest ih =>
    obtain ⟨k0, v0⟩ := e
    have h0 : k0 ≠ k := h (k0, v0) (List.mem_cons_self _ _)
    simp only [setEntry, h0, if_false, List.cons_append]
    rw [ih (fun e he => h e (List.mem_cons_of_mem _ he))]

/-- What `nameFree` says of each member. -/
theorem nameFree_mem (k : Str) : ∀ (ms : List (Str × JDoc)), nameFree k ms = true →
    ∀ m ∈ ms, m.1 ≠ k
  | [], _, m, hm => by simp at hm
  | (l, d) :: ms, h, m, hm => by
    simp only [nameFree, Bool.and_eq_true, decide_eq_true_eq] at h
    rcases List.mem_cons.mp hm with rfl | hin
    · exact h.1
    · exact nameFree_mem k ms h.2 m hin

mutual
/-- A document whose numbers are `float64` values is stored exactly. -/
theorem valueInterface_exact : ∀ d : JDoc, float64Document d = true →
    ∃ v, valueInterface d = some v ∧ isExactly v d = true
  | JDoc.null, _ => ⟨JValue.null, rfl, rfl⟩
  | JDoc.bool b, _ => ⟨JValue.bool b, rfl, by simp [isExactly]⟩
  | JDoc.str s, _ => ⟨JValue.str s, rfl, by simp [isExactly]⟩
  | JDoc.num n, h => by
    simp only [float64Document] at h
    cases hp : ParseFloat n with
    | none => simp [hp] at h
    | some f =>
      simp only [hp] at h
      exact ⟨JValue.num f, by simp [valueInterface, hp], by simpa [isExactly] using h⟩
  | JDoc.arr ds, h => by
    simp only [float64Document] at h
    obtain ⟨vs, hvs, hex⟩ := arrayInterface_exact ds h
    exact ⟨JValue.arr vs, by simp [valueInterface, hvs], by simpa [isExactly] using hex⟩
  | JDoc.obj ms, h => by
    simp only [float64Document, Bool.and_eq_true] at h
    obtain ⟨es, hes, hex⟩ := objectInterface_exact ms [] h.2 h.1 (by simp)
    exact ⟨JValue.obj es, by simp [valueInterface, hes], by simpa [isExactly] using hex⟩
/-- The elements of such an array are stored exactly. -/
theorem arrayInterface_exact : ∀ ds : List JDoc, float64Items ds = true →
    ∃ vs, arrayInterface ds = some vs ∧ itemsExactly vs ds = true
  | [], _ => ⟨[], rfl, rfl⟩
  | d :: ds, h => by
    simp only [float64Items, Bool.and_eq_true] at h
    obtain ⟨v, hv, hex⟩ := valueInterface_exact d h.1
    obtain ⟨vs, hvs, hexs⟩ := arrayInterface_exact ds h.2
    exact ⟨v :: vs, by simp [arrayInterface, hv, hvs], by simp [itemsExactly, hex, hexs]⟩
/-- The members of such an object, their names distinct and not in the map
yet, are stored exactly, after the entries the map has. -/
theorem objectInterface_exact : ∀ (ms : List (Str × JDoc)) (acc : JMap),
    float64Members ms = true → namesDistinct ms = true →
    (∀ m ∈ ms, ∀ e ∈ acc, e.1 ≠ m.1) →
    ∃ es, objectInterface ms acc = some (acc ++ es) ∧ entriesExactly es ms = true
  | [], acc, _, _, _ => ⟨[], by simp [objectInterface], rfl⟩
  | (k, d) :: ms, acc, h, hd, hacc => by
    simp only [float64Members, Bool.and_eq_true] at h
    simp only [namesDistinct, Bool.and_eq_true] at hd
    obtain ⟨v, hv, hex⟩ := valueInterface_exact d h.1
    have hset : setEntry acc k v = acc ++ [(k, v)] :=
      setEntry_append acc k v (fun e he => hacc (k, d) (List.mem_cons_self _ _) e he)
    have hfree := nameFree_mem k ms hd.1
    obtain ⟨es, hes, hexs⟩ := objectInterface_exact ms (acc ++ [(k, v)]) h.2 hd.2 (by
      intro m hm e he
      rcases List.mem_append.mp he with he | he
      · exact hacc m (List.mem_cons_of_mem _ hm) e he
      · simp only [List.mem_singleton] at he
        rw [he]
        exact fun heq => hfree m hm heq.symm)
    refine ⟨(k, v) :: es, ?_, by simp [entriesExactly, hex, hexs]⟩
    simp only [objectInterface, hv, hset, hes, List.append_assoc, List.singleton_append]
end

/-- A message that `formatSQSMessages` returns can be written as JSON. -/
theorem formatSQSMessages_marshals (body : Str) (fm : MessageFormat)
    (h : formatSQSMessages body = Run.returns fm) :
    ∃ js, marshalMessageFormat fm = some js := by
  have hzero : ∃ js, marshalMessageFormat MessageFormat.zero = some js :=
    ⟨forwardedZero, by decide⟩
  unfold formatSQSMessages at h
  split at h
  · cases h; exact hzero
  · split at h
    · cases h; exact hzero
    · split at h
      · cases h; exact hzero
      · split at h
        · cases h; exact hzero
        · split at h
          · cases h
          · rename_i js hjs
            cases h
            exact ⟨js, hjs⟩

/-- The function `sendLogEntry` on a message that can be written as JSON: one
post of that document, and nil exactly when the answer is status 200. -/
theorem sendLogEntry_of_marshal (w : World) (hist : List Call) (fm : MessageFormat)
    (js : JValue) (h : marshalMessageFormat fm = some js) :
    sendLogEntry w hist fm
      = (decide (w.httpPost hist w.redirectURL js = PostResult.response 200),
          [Call.post w.redirectURL js (w.httpPost hist w.redirectURL js)]) := by
  unfold sendLogEntry
  simp only [h]
  cases hr : w.httpPost hist w.redirectURL js with
  | transportError => simp
  | response code => by_cases hc : code = 200 <;> simp [hc, StatusOK]

/-- The calls one iteration of the loop makes when it does not end the
process: one post of the formatted message, followed by one `DeleteMessage`
with the message's receipt handle exactly when the post was answered 200. -/
theorem processMessage_calls (w : World) (queueURL : Str) (hist : List Call)
    (msg : SqsMessage) (calls : List Call)
    (h : processMessage w queueURL hist msg = Run.returns calls) :
    ∃ fm js, formatSQSMessages msg.Body = Run.returns fm
      ∧ marshalMessageFormat fm = some js
      ∧ ((w.httpPost hist w.redirectURL js = PostResult.response 200
          ∧ ∃ ok, calls = [Call.post w.redirectURL js (PostResult.response 200),
              Call.deleteMessage queueURL msg.ReceiptHandle ok])
        ∨ (w.httpPost hist w.redirectURL js ≠ PostResult.response 200
          ∧ calls = [Call.post w.redirectURL js (w.httpPost hist w.redirectURL js)])) := by
  unfold processMessage at h
  cases hf : formatSQSMessages msg.Body with
  | exits => simp [hf] at h
  | returns fm =>
    obtain ⟨js, hjs⟩ := formatSQSMessages_marshals msg.Body fm hf
    refine ⟨fm, js, rfl, hjs, ?_⟩
    simp only [hf, sendLogEntry_of_marshal w hist fm js hjs] at h
    by_cases hr : w.httpPost hist w.redirectURL js = PostResult.response 200
    · left
      simp only [hr, decide_True, Run.returns.injEq] at h
      exact ⟨hr, _, by rw [← h]; rfl⟩
    · right
      simp only [hr, decide_False, Run.returns.injEq] at h
      exact ⟨hr, h.symm⟩

/-- The loop at its next message. -/
theorem processMessages_cons (w : World) (queueURL : Str) (hist : List Call)
    (msg : SqsMessage) (rest : List SqsMessage) :
    processMessages w queueURL hist (msg :: rest)
      = match processMessage w queueURL hist msg with
        | Run.exits => []
        | Run.returns calls => calls :: processMessages w queueURL (hist ++ calls) rest := by
  rw [processMessages]

/-- The loop records at most one entry per message. -/
theorem length_processMessages_le (w : World) (queueURL : Str) :
    ∀ (msgs : List SqsMessage) (hist : List Call),
      (processMessages w queueURL hist msgs).length ≤ msgs.length
  | [], _ => by simp [processMessages]
  | first :: rest, hist => by
    rw [processMessages_cons]
    cases processMessage w queueURL hist first with
    | exits => simp
    | returns calls =>
      have := length_processMessages_le w queueURL rest (hist ++ calls)
      simp only [List.length_cons]
      omega

/-- When the loop has gone through the messages `pre` without ending the
process, it goes on with the messages after them, after the calls made for
`pre`. -/
theorem processMessages_append (w : World) (queueURL : Str) :
    ∀ (pre : List SqsMessage) (hist : List Call) (rest : List SqsMessage),
      (processMessages w queueURL hist pre).length = pre.length →
      processMessages w queueURL hist (pre ++ rest)
        = processMessages w queueURL hist pre
          ++ processMessages w queueURL
              (hist ++ (processMessages w queueURL hist pre).flatten) rest
  | [], hist, rest, _ => by simp [processMessages]
  | first :: tl, hist, rest, h => by
    simp only [List.cons_append, processMessages_cons] at h ⊢
    cases hp : processMessage w queueURL hist first with
    | exits => simp [hp] at h
    | returns calls =>
      simp only [hp, List.length_cons, Nat.add_right_cancel_iff] at h ⊢
      rw [processMessages_append w queueURL tl (hist ++ calls) rest h]
      simp [List.append_assoc]

/-- When the process ended within the messages `pre`, nothing is recorded for
the messages after them. -/
theorem processMessages_append_of_exit (w : World) (queueURL : Str) :
    ∀ (pre : List SqsMessage) (hist : List Call) (rest : List SqsMessage),
      (processMessages w queueURL hist pre).length < pre.length →
      processMessages w queueURL hist (pre ++ rest) = processMessages w queueURL hist pre
  | [], hist, rest, h => by simp [processMessages] at h
  | first :: tl, hist, rest, h => by
    simp only [List.cons_append, processMessages_cons] at h ⊢
    cases hp : processMessage w queueURL hist first with
    | exits => rfl
    | returns calls =>
      simp only [hp, List.length_cons, Nat.add_lt_add_iff_right] at h ⊢
      rw [processMessages_append_of_exit w queueURL tl (hist ++ calls) rest h]

/-- The calls recorded for the message that follows the messages `pre`: what
the loop body returns for it after the calls made for `pre`, and nothing when
the process ended before or at this message. -/
theorem callsFor_after (w : World) (queueURL : Str) (hist : List Call)
    (pre : List SqsMessage) (msg : SqsMessage) (post : List SqsMessage) :
    callsFor (pollCycle w queueURL hist (some (pre ++ msg :: post))) pre.length
      = if (processMessages w queueURL hist pre).length = pre.length then
          match processMessage w queueURL
              (hist ++ (processMessages w queueURL hist pre).flatten) msg with
          | Run.returns calls => calls
          | Run.exits => []
        else [] := by
  simp only [pollCycle, callsFor]
  by_cases h : (processMessages w queueURL hist pre).length = pre.length
  · rw [if_pos h, processMessages_append w queueURL pre hist (msg :: post) h]
    rw [List.getD_append_right _ _ _ _ (by omega), h, Nat.sub_self, processMessages_cons]
    cases processMessage w queueURL
        (hist ++ (processMessages w queueURL hist pre).flatten) msg with
    | exits => rfl
    | returns calls => rfl
  · have hle := length_processMessages_le w queueURL pre hist
    have hlt : (processMessages w queueURL hist pre).length < pre.length := by omega
    rw [if_neg h, processMessages_append_of_exit w queueURL pre hist (msg :: post) hlt]
    exact List.getD_eq_default _ _ (by omega)

/-- C1: in one poll cycle, for the received message `msg` that follows the
messages `pre`, `before` being the calls made until the loop reaches it.  For
every body `formatSQSMessages` returns a message or ends the process.  When it
returns a message and the loop has reached `msg`, that message is forwarded in
one post, and the forward succeeds exactly when the sink answers the post with
status 200.  When it succeeds, the post is followed by exactly one
`DeleteMessage` call, with the receipt handle of `msg`; when it fails, the
post is the only call made for `msg` and there is no `DeleteMessage`.  When
the process ended before or at this message, no call is made for it. -/
theorem delete_iff_forward_succeeded (w : World) (queueURL : Str) (hist : List Call)
    (pre : List SqsMessage) (msg : SqsMessage) (post : List SqsMessage) (before : List Call)
    (hbefore : before = hist ++ (processMessages w queueURL hist pre).flatten) :
    (∀ fm js, (processMessages w queueURL hist pre).length = pre.length →
        formatSQSMessages msg.Body = Run.returns fm →
        marshalMessageFormat fm = some js →
        ((sendLogEntry w before fm).1 = true
            ↔ w.httpPost before w.redirectURL js = PostResult.response 200)
          ∧ ((sendLogEntry w before fm).1 = true →
            callsFor (pollCycle w queueURL hist (some (pre ++ msg :: post))) pre.length
              = [Call.post w.redirectURL js (PostResult.response 200),
                  Call.deleteMessage queueURL msg.ReceiptHandle
                    (w.sqsDeleteMessage
                      (before ++ [Call.post w.redirectURL js (PostResult.response 200)])
                      queueURL msg.ReceiptHandle)])
          ∧ ((sendLogEntry w before fm).1 = false →
            callsFor (pollCycle w queueURL hist (some (pre ++ msg :: post))) pre.length
              = [Call.post w.redirectURL js (w.httpPost before w.redirectURL js)]))
      ∧ (∀ fm, formatSQSMessages msg.Body = Run.returns fm →
          ∃ js, marshalMessageFormat fm = some js)
      ∧ ((processMessages w queueURL hist pre).length < pre.length
          ∨ formatSQSMessages msg.Body = Run.exits →
        callsFor (pollCycle w queueURL hist (some (pre ++ msg :: post))) pre.length = [])
      ∧ (processMessages w queueURL hist pre).length ≤ pre.length := by
  subst hbefore
  refine ⟨?_, fun fm hfm => formatSQSMessages_marshals msg.Body fm hfm, ?_,
    length_processMessages_le w queueURL pre hist⟩
  · intro fm js hreach hfm hjs
    rw [callsFor_after, if_pos hreach]
    simp only [processMessage, hfm, sendLogEntry_of_marshal w _ fm js hjs]
    refine ⟨by simp, ?_, ?_⟩
    · intro h200
      simp only [decide_eq_true_eq] at h200
      simp only [h200, decide_True]
      rfl
    · intro hne
      simp only [decide_eq_false_iff_not] at hne
      simp only [hne, decide_False]
  · intro h
    rw [callsFor_after]
    rcases h with h | h
    · rw [if_neg (by omega)]
    · split
      · simp only [processMessage, h]
      · rfl

/-- C1 on a cycle of two messages with the body of the specification's
example, in a world whose sink answers 200: the loop reaches the second
message, forwards it and deletes it, with its receipt handle. -/
theorem delete_iff_forward_succeeded_witness :
    (processMessages (steadyWorld (PostResult.response 200) true) "queue-url".toList []
        [⟨bodyHi, "rh-1".toList, "id-1".toList⟩]).length = 1
      ∧ formatSQSMessages bodyHi = Run.returns ⟨"hi".toList, ⟨2024, 1, 1, 0, 0, 0, 0, 0⟩⟩
      ∧ callsFor (pollCycle (steadyWorld (PostResult.response 200) true) "queue-url".toList []
          (some [⟨bodyHi, "rh-1".toList, "id-1".toList⟩,
            ⟨bodyHi, "rh-2".toList, "id-2".toList⟩])) 1
        = [Call.post "http://sink/logs".toList forwardedHi (PostResult.response 200),
            Call.deleteMessage "queue-url".toList "rh-2".toList true] :=
  ⟨by decide!, by decide!,
    ((delete_iff_forward_succeeded (steadyWorld (PostResult.response 200) true)
      "queue-url".toList [] [⟨bodyHi, "rh-1".toList, "id-1".toList⟩]
      ⟨bodyHi, "rh-2".toList, "id-2".toList⟩ []
      [Call.post "http://sink/logs".toList forwardedHi (PostResult.response 200),
        Call.deleteMessage "queue-url".toList "rh-1".toList true]
      (by decide!)).1 ⟨"hi".toList, ⟨2024, 1, 1, 0, 0, 0, 0, 0⟩⟩ forwardedHi
      (by decide!) (by decide!) (by decide!)).2.1 (by decide!)⟩

/-- A cycle of two well-formed messages in a world whose sink accepts the
first forward and refuses the second, call by call: the first message is
forwarded and deleted, the second is forwarded, refused by the sink and left
in the queue. -/
theorem poll_cycle_example :
    pollCycle flakyWorld "queue-url".toList []
        (some [⟨bodyHi, "rh-1".toList, "id-1".toList⟩, ⟨bodyHi, "rh-2".toList, "id-2".toList⟩])
      = [[Call.post "http://sink/logs".toList forwardedHi (PostResult.response 200),
          Call.deleteMessage "queue-url".toList "rh-1".toList true],
        [Call.post "http://sink/logs".toList forwardedHi (PostResult.response 503)]] := by
  decide!

/-- C2 fails on the code: `formatSQSMessages` answers a body it cannot read
with the zero `MessageFormat{}`, and the loop forwards that and deletes the
message once the sink accepts it.  Here for a body without `Message`, a body
without `Timestamp`, a body whose `Timestamp` does not parse, and a body that
is not JSON. -/
theorem malformed_body_is_forwarded_and_deleted :
    (∀ body ∈ [bodyNoMessage, bodyNoTimestamp, bodyBadTimestamp, "not json".toList],
        formatSQSMessages body = Run.returns MessageFormat.zero ∧ normalized body = none)
      ∧ pollCycle (steadyWorld (PostResult.response 200) true) "queue-url".toList []
          (some [⟨bodyNoMessage, "rh-1".toList, "id-1".toList⟩,
            ⟨bodyNoTimestamp, "rh-2".toList, "id-2".toList⟩,
            ⟨bodyBadTimestamp, "rh-3".toList, "id-3".toList⟩,
            ⟨"not json".toList, "rh-4".toList, "id-4".toList⟩])
        = [[Call.post "http://sink/logs".toList forwardedZero (PostResult.response 200),
            Call.deleteMessage "queue-url".toList "rh-1".toList true],
          [Call.post "http://sink/logs".toList forwardedZero (PostResult.response 200),
            Call.deleteMessage "queue-url".toList "rh-2".toList true],
          [Call.post "http://sink/logs".toList forwardedZero (PostResult.response 200),
            Call.deleteMessage "queue-url".toList "rh-3".toList true],
          [Call.post "http://sink/logs".toList forwardedZero (PostResult.response 200),
            Call.deleteMessage "queue-url".toList "rh-4".toList true]] := by
  decide!

/-! ### The forwarder and the sink's status (C3) -/

/-- C3, as stated, fails: a sink response with status 201, which is in the 2xx
range, makes both `sendLogEntry` and `sendDataToServer` return an error. -/
theorem forwarder_rejects_status_201 :
    (sendLogEntry (steadyWorld (PostResult.response 201) true) [] MessageFormat.zero).1 = false
      ∧ (sendDataToServer (steadyWorld (PostResult.response 201) true) [] (some [])).1
        = false := by
  decide

/-- C3, amended: for a sink response with status `code`, `sendLogEntry` and
`sendDataToServer` return nil exactly when `code` is 200; every other status,
the other 2xx codes included, is an error. -/
theorem forwarder_succeeds_iff_status_200 (w : World) (hist : List Call)
    (msg : MessageFormat) (msgJSON : JValue) (data : Option JMap) (code : Nat)
    (hmarshal : marshalMessageFormat msg = some msgJSON)
    (hlog : w.httpPost hist w.redirectURL msgJSON = PostResult.response code)
    (hdata : w.httpPost hist w.redirectURL (marshalMap data) = PostResult.response code) :
    ((sendLogEntry w hist msg).1 = true ↔ code = 200)
      ∧ ((sendDataToServer w hist data).1 = true ↔ code = 200) := by
  constructor
  · simp only [sendLogEntry, hmarshal, hlog, StatusOK]
    by_cases h : code = 200 <;> simp [h]
  · simp only [sendDataToServer, hdata, StatusOK]
    by_cases h : code = 200 <;> simp [h]

/-- C3, amended, at status 204 for the zero message and the empty map: both
forwarders return an error. -/
theorem forwarder_succeeds_iff_status_200_witness :
    ((sendLogEntry (steadyWorld (PostResult.response 204) true) [] MessageFormat.zero).1 = true
        ↔ 204 = 200)
      ∧ ((sendDataToServer (steadyWorld (PostResult.response 204) true) [] (some [])).1 = true
        ↔ 204 = 200) :=
  forwarder_succeeds_iff_status_200 (steadyWorld (PostResult.response 204) true) []
    MessageFormat.zero
    (JValue.obj [("message".toList, JValue.str []),
      ("timestamp".toList, JValue.str "0001-01-01T00:00:00Z".toList)])
    (some []) 204 (by decide) rfl rfl

/-! ### The webhook dispatch (C4, C5, C8) -/

/-- C4: for an envelope of type `SubscriptionConfirmation`, the handler makes
exactly one call, a `ConfirmSubscription` with the envelope's token and topic,
and no forward call, whether the confirmation succeeds or fails. -/
theorem confirmation_calls_confirm_once (w : World) (hist : List Call) (m : snsMessage)
    (htype : m.Type_ = SubscriptionConfirmation) :
    (HandleSNSNotification w hist (some m)).1
        = [Call.confirmSubscription m.Token m.TopicArn
            (w.snsConfirmSubscription hist m.Token m.TopicArn)]
      ∧ confirmCalls (HandleSNSNotification w hist (some m)).1 = [(m.Token, m.TopicArn)]
      ∧ postCalls (HandleSNSNotification w hist (some m)).1 = [] := by
  have hcalls : (HandleSNSNotification w hist (some m)).1
      = [Call.confirmSubscription m.Token m.TopicArn
          (w.snsConfirmSubscription hist m.Token m.TopicArn)] := by
    simp only [HandleSNSNotification, htype, if_true, handleSubscriptionConfirmation]
    cases w.snsConfirmSubscription hist m.Token m.TopicArn <;> rfl
  rw [hcalls]
  exact ⟨rfl, rfl, rfl⟩

/-- C4 for a confirmation that SNS refuses: still one confirm call with the
token and the topic, and no forward. -/
theorem confirmation_calls_confirm_once_witness :
    (HandleSNSNotification (steadyWorld (PostResult.response 200) false) []
        (some ⟨SubscriptionConfirmation, "tok-1".toList, "arn:topic".toList, []⟩)).1
        = [Call.confirmSubscription "tok-1".toList "arn:topic".toList false]
      ∧ confirmCalls (HandleSNSNotification (steadyWorld (PostResult.response 200) false) []
        (some ⟨SubscriptionConfirmation, "tok-1".toList, "arn:topic".toList, []⟩)).1
        = [("tok-1".toList, "arn:topic".toList)]
      ∧ postCalls (HandleSNSNotification (steadyWorld (PostResult.response 200) false) []
        (some ⟨SubscriptionConfirmation, "tok-1".toList, "arn:topic".toList, []⟩)).1
        = [] :=
  confirmation_calls_confirm_once (steadyWorld (PostResult.response 200) false) []
    ⟨SubscriptionConfirmation, "tok-1".toList, "arn:topic".toList, []⟩ rfl

/-- The forwarder `sendDataToServer` makes exactly one call, a post. -/
theorem sendDataToServer_calls (w : World) (hist : List Call) (data : Option JMap) :
    (sendDataToServer w hist data).2
      = [Call.post w.redirectURL (marshalMap data)
          (w.httpPost hist w.redirectURL (marshalMap data))] := by
  cases h : w.httpPost hist w.redirectURL (marshalMap data) with
  | transportError => simp [sendDataToServer, h]
  | response code => by_cases hc : code = StatusOK <;> simp [sendDataToServer, h, hc]

/-- The calls of `processSnsNotification`: none, or one post. -/
theorem processSnsNotification_posts_le_one (w : World) (hist : List Call) (m : snsMessage) :
    (postCalls (processSnsNotification w hist m)).length ≤ 1 := by
  unfold processSnsNotification
  cases parseBody (stripQuotes m.Body) with
  | error e => simp [postCalls]
  | ok parsed => simp [sendDataToServer_calls, postCalls]

/-- C5: the handler writes exactly one response, whose status is the one the
specification gives (400 for an undecodable body or an unknown type, 500 for
a failed confirmation, 200 otherwise, whatever happens to a notification's
payload), and it forwards at most once. -/
theorem handler_one_response_with_spec_status (w : World) (hist : List Call)
    (decoded : Option snsMessage) :
    (HandleSNSNotification w hist decoded).2.map Response.status
        = [specStatus w hist decoded]
      ∧ (postCalls (HandleSNSNotification w hist decoded).1).length ≤ 1 := by
  cases decoded with
  | none => simp [HandleSNSNotification, specStatus, StatusBadRequest, postCalls]
  | some m =>
    by_cases h1 : m.Type_ = SubscriptionConfirmation
    · cases hc : w.snsConfirmSubscription hist m.Token m.TopicArn <;>
        simp [HandleSNSNotification, specStatus, h1, hc, handleSubscriptionConfirmation,
          StatusInternalServerError, StatusOK, postCalls]
    · by_cases h2 : m.Type_ = Notification
      · have hne : Notification ≠ SubscriptionConfirmation := by decide
        refine ⟨?_, ?_⟩
        · simp [HandleSNSNotification, specStatus, h2, hne, StatusOK]
        · simp only [HandleSNSNotification, h2, hne, if_false, if_true]
          exact processSnsNotification_posts_le_one w hist m
      · simp [HandleSNSNotification, specStatus, h1, h2, StatusBadRequest, postCalls]

/-- C8: for an envelope whose type is neither `SubscriptionConfirmation` nor
`Notification`, the handler answers 400 and calls no service: no
`ConfirmSubscription` and no forward. -/
theorem unknown_type_is_rejected_without_calls (w : World) (hist : List Call) (m : snsMessage)
    (h1 : m.Type_ ≠ SubscriptionConfirmation)
    (h2 : m.Type_ ≠ Notification) :
    HandleSNSNotification w hist (some m)
      = ([], [⟨400, "error".toList, "Unknown Message Type".toList⟩]) := by
  simp [HandleSNSNotification, h1, h2, StatusBadRequest]

/-- C8 for the type `Foo`, with a sink and a topic that would accept a call. -/
theorem unknown_type_is_rejected_without_calls_witness :
    HandleSNSNotification (steadyWorld (PostResult.response 200) true) []
        (some ⟨"Foo".toList, "tok-1".toList, "arn:topic".toList, "null".toList⟩)
      = ([], [⟨400, "error".toList, "Unknown Message Type".toList⟩]) :=
  unknown_type_is_rejected_without_calls (steadyWorld (PostResult.response 200) true) []
    ⟨"Foo".toList, "tok-1".toList, "arn:topic".toList, "null".toList⟩
    (by decide) (by decide)

/-! ### Unwrapping the payload of a notification (C6, C7, C10) -/

/-- What `consChar` returning a result says of its argument. -/
theorem consChar_eq_some (c : Char) (r : Option (Str × Str)) (s rest : Str)
    (h : consChar c r = some (s, rest)) : ∃ s0, r = some (s0, rest) ∧ s = c :: s0 := by
  cases r with
  | none => simp [consChar] at h
  | some p =>
    obtain ⟨s0, r0⟩ := p
    simp only [consChar, Option.some.injEq, Prod.mk.injEq] at h
    exact ⟨s0, by rw [h.2], h.1.symm⟩

/-- The scanner of string literals stops right after a quote: the text it
consumed and the rest are separated by one. -/
theorem scanStringFrom_split :
    ∀ (cs : Str) (skip : Nat) (s rest : Str),
      scanStringFrom skip cs = some (s, rest) → ∃ pre, cs = pre ++ '"' :: rest
  | [], skip, s, rest, h => by cases skip <;> simp [scanStringFrom] at h
  | c :: tl, skip + 1, s, rest, h => by
    simp only [scanStringFrom] at h
    obtain ⟨pre, hpre⟩ := scanStringFrom_split tl skip s rest h
    exact ⟨c :: pre, by rw [hpre]; rfl⟩
  | c :: tl, 0, s, rest, h => by
    simp only [scanStringFrom] at h
    split at h
    · rename_i hc
      simp only [Option.some.injEq, Prod.mk.injEq] at h
      exact ⟨[], by rw [hc, h.2]; rfl⟩
    · split at h
      · split at h
        · rename_i ch k hk
          obtain ⟨s0, hs0, _⟩ := consChar_eq_some _ _ _ _ h
          obtain ⟨pre, hpre⟩ := scanStringFrom_split tl k s0 rest hs0
          exact ⟨c :: pre, by rw [hpre]; rfl⟩
        · cases h
      · split at h
        · cases h
        · obtain ⟨s0, hs0, _⟩ := consChar_eq_some _ _ _ _ h
          obtain ⟨pre, hpre⟩ := scanStringFrom_split tl 0 s0 rest hs0
          exact ⟨c :: pre, by rw [hpre]; rfl⟩

/-- A text that `skipSpace` empties is whitespace. -/
theorem skipSpace_eq_nil : ∀ (cs : Str), skipSpace cs = [] → ∀ c ∈ cs, isSpace c = true
  | [], _, c, hc => by simp at hc
  | d :: tl, h, c, hc => by
    simp only [skipSpace] at h
    split at h
    · rename_i hd
      rcases List.mem_cons.mp hc with rfl | hin
      · exact hd
      · exact skipSpace_eq_nil tl h c hin
    · cases h

/-- At a quote, `value` reads a string literal. -/
theorem value_quote (fuel : Nat) (r : Str) :
    value (fuel + 1) ('"' :: r)
      = (scanString r).map (fun p => (JDoc.str p.1, p.2)) := by
  have hsp : skipSpace ('"' :: r) = '"' :: r := by simp [skipSpace, isSpace]
  have h1 : ¬ ('"' = '{') := by decide
  have h2 : ¬ ('"' = '[') := by decide
  cases h : scanString r with
  | none => simp only [value, hsp, h1, h2, if_false, if_true, h, Option.map_none']
  | some p => simp only [value, hsp, h1, h2, if_false, if_true, h, Option.map_some']

/-- A text that starts with a quote is, if it is JSON at all, a string
literal followed by whitespace only. -/
theorem parseJSON_quote (r : Str) (doc : JDoc) (h : parseJSON ('"' :: r) = some doc) :
    ∃ s pre tail, doc = JDoc.str s ∧ r = pre ++ '"' :: tail
      ∧ ∀ c ∈ tail, isSpace c = true := by
  unfold parseJSON at h
  rw [value_quote] at h
  cases hs : scanString r with
  | none => simp [hs] at h
  | some p =>
    obtain ⟨s, tail⟩ := p
    simp only [hs, Option.map_some'] at h
    split at h
    · rename_i hsp
      obtain ⟨pre, hpre⟩ := scanStringFrom_split r 0 s tail hs
      simp only [Option.some.injEq] at h
      exact ⟨s, pre, tail, h.symm, hpre, skipSpace_eq_nil tail hsp⟩
    · cases h

/-- The slicing of `processSnsNotification` never applies to a JSON text:
such a text cannot both start with a quote and end with a closing brace. -/
theorem stripQuotes_of_parses (raw : Str) (doc : JDoc) (h : parseJSON raw = some doc) :
    stripQuotes raw = raw := by
  unfold stripQuotes
  split
  · rename_i hcond
    exfalso
    simp only [HasPrefix, HasSuffix, Bool.and_eq_true, List.isPrefixOf_iff_prefix,
      List.isSuffixOf_iff_suffix] at hcond
    obtain ⟨⟨p, hp⟩, ⟨q, hq⟩⟩ := hcond
    have hraw : raw = '"' :: ('{' :: p) := by rw [← hp]; rfl
    rw [hraw] at h
    obtain ⟨s, pre, tail, _, hsplit, htail⟩ := parseJSON_quote _ doc h
    have hlast : raw.getLast? = some '}' := by
      rw [← hq]; simp
    rw [hraw, hsplit] at hlast
    have hmem : '}' ∈ '"' :: tail := by
      have : ('"' :: pre ++ '"' :: tail).getLast? = ('"' :: tail).getLast? := by
        rw [show ('"' :: pre ++ '"' :: tail) = ('"' :: pre) ++ ('"' :: tail) from rfl,
          List.getLast?_append]
        simp [List.getLast?_cons]
      have h2 : ('"' :: tail).getLast? = some '}' := by
        rw [← this]; exact hlast
      exact List.mem_of_getLast?_eq_some h2
    rcases List.mem_cons.mp hmem with h1 | h1
    · exact absurd h1 (by decide)
    · exact absurd (htail _ h1) (by decide)
  · rfl

/-- A text that the decoder accepts is a JSON text. -/
theorem parseJSON_of_decodes (raw : Str) (v : JValue) (h : decodeText raw = some v) :
    ∃ doc, parseJSON raw = some doc ∧ decodeDocument doc = some v := by
  unfold decodeText at h
  cases hp : parseJSON raw with
  | none => simp [hp] at h
  | some doc => exact ⟨doc, rfl, by simpa [hp] using h⟩

/-- The slicing of `processSnsNotification` never applies to a text that the
decoder accepts: such a text cannot both start with a quote and end with a
closing brace. -/
theorem stripQuotes_of_decodes (raw : Str) (v : JValue) (h : decodeText raw = some v) :
    stripQuotes raw = raw := by
  obtain ⟨doc, hp, _⟩ := parseJSON_of_decodes raw v h
  exact stripQuotes_of_parses raw doc hp

/-- The three raw messages of the examples are what their names say. -/
theorem raw_examples_decode :
    decodeText rawObject = some (JValue.obj mapA1)
      ∧ decodeText rawQuoted = some (JValue.str rawObject)
      ∧ decodeText rawQuotedTwice = some (JValue.str rawQuoted) := by
  decide!

/-- C7 fails on the code: for the object quoted twice nothing is stripped
(the text does not end with a quote and a brace), `parseBody` unwraps one
string, finds a string where it needs an object and returns an error, and
nothing is forwarded; the handler still answers 200.  The same object quoted
once is forwarded. -/
theorem twice_quoted_message_is_dropped :
    stripQuotes rawQuotedTwice = rawQuotedTwice
      ∧ parseBody rawQuotedTwice = Except.error UnmarshalError.typeError
      ∧ HandleSNSNotification (steadyWorld (PostResult.response 200) true) []
          (some (notificationOf rawQuotedTwice)) = ([], [acknowledged])
      ∧ HandleSNSNotification (steadyWorld (PostResult.response 200) true) []
          (some (notificationOf rawQuoted))
        = ([Call.post "http://sink/logs".toList (JValue.obj mapA1) (PostResult.response 200)],
            [acknowledged]) := by
  decide!

/-- A hexadecimal digit is read back. -/
theorem hexVal_lowerHex (n : Nat) (h : n < 16) : hexVal (lowerHex n) = some n := by
  interval_cases n <;> rfl

/-- The escape written for a control character gives its code. -/
theorem getu4_control (n : Nat) (h : n < 32) :
    getu4 '0' '0' (lowerHex (n / 16)) (lowerHex (n % 16)) = some n := by
  have h0 : hexVal '0' = some 0 := rfl
  have h1 := hexVal_lowerHex (n / 16) (by omega)
  have h2 := hexVal_lowerHex (n % 16) (by omega)
  simp only [getu4, h0, h1, h2, Option.some.injEq]
  omega

/-- The escape written for a control character decodes to it. -/
theorem decodeEscape_control (c : Char) (h : c.toNat < 32) (rest : Str) :
    decodeEscape ('u' :: '0' :: '0' :: lowerHex (c.toNat / 16)
        :: lowerHex (c.toNat % 16) :: rest) = some (c, 5) := by
  have hs : ¬ (55296 ≤ c.toNat ∧ c.toNat < 57344) := by omega
  simp only [decodeEscape, if_true, getu4_control c.toNat h, hs, if_false, Char.ofNat_toNat]

/-- An escaped character is read back. -/
theorem scanStringFrom_escapeChar (c : Char) (rest : Str) :
    scanStringFrom 0 (escapeChar c ++ rest) = consChar c (scanStringFrom 0 rest) := by
  unfold escapeChar
  by_cases h3 : c.toNat < 32
  · have hq : ¬ ('\\' = '"') := by decide
    simp only [h3, if_true, List.cons_append, List.nil_append, scanStringFrom, hq, if_false,
      decodeEscape_control c h3]
  · by_cases h1 : c = '"'
    · subst h1
      simp only [h3, if_false, true_or, if_true, List.cons_append, List.nil_append]
      rfl
    · by_cases h2 : c = '\\'
      · subst h2
        simp only [h3, if_false, or_true, if_true, List.cons_append, List.nil_append]
        rfl
      · simp only [h1, h2, h3, or_self, if_false, List.cons_append, List.nil_append,
          scanStringFrom]

/-- An escaped text followed by a quote is read back. -/
theorem scanString_escapeText (s rest : Str) :
    scanString (escapeText s ++ '"' :: rest) = some (s, rest) := by
  unfold scanString
  induction s with
  | nil => simp [escapeText, scanStringFrom]
  | cons c cs ih =>
    rw [escapeText, List.append_assoc, scanStringFrom_escapeChar, ih]
    rfl

/-- The JSON string literal of a text is the text of that string. -/
theorem parseJSON_jsonStringLiteral (s : Str) :
    parseJSON (jsonStringLiteral s) = some (JDoc.str s) := by
  unfold parseJSON jsonStringLiteral
  rw [List.length_cons, value_quote, scanString_escapeText]
  simp [skipSpace]

/-- A string is stored as itself. -/
theorem decodeDocument_str (s : Str) : decodeDocument (JDoc.str s) = some (JValue.str s) := by
  simp [decodeDocument, nesting, valueInterface]

/-- The JSON string literal of a text decodes to that text. -/
theorem decodeText_jsonStringLiteral (s : Str) :
    decodeText (jsonStringLiteral s) = some (JValue.str s) := by
  unfold decodeText
  rw [parseJSON_jsonStringLiteral]
  exact decodeDocument_str s

/-- A raw message that is the text of an object, or a JSON string whose
content is that text, passes the slicing unchanged, and `parseBody` returns
what the decoder stores for the object: the map, or an error. -/
theorem parseBody_of_object_text (raw : Str) (members : List (Str × JDoc))
    (hraw : parseJSON raw = some (JDoc.obj members)
      ∨ ∃ content, parseJSON raw = some (JDoc.str content)
          ∧ parseJSON content = some (JDoc.obj members)) :
    stripQuotes raw = raw
      ∧ (∀ o, decodeDocument (JDoc.obj members) = some (JValue.obj o) →
          parseBody (stripQuotes raw) = Except.ok (some o))
      ∧ (decodeDocument (JDoc.obj members) = none →
          ∃ err, parseBody (stripQuotes raw) = Except.error err) := by
  have hstrip : stripQuotes raw = raw := by
    rcases hraw with h | ⟨content, h, _⟩
    · exact stripQuotes_of_parses _ _ h
    · exact stripQuotes_of_parses _ _ h
  refine ⟨hstrip, ?_, ?_⟩
  · intro o ho
    rw [hstrip]
    unfold parseBody unmarshalMap unmarshalString
    rcases hraw with h | ⟨content, h, hc⟩
    · simp [decodeText, h, ho]
    · simp [decodeText, h, hc, ho, decodeDocument_str]
  · intro hnone
    rw [hstrip]
    unfold parseBody unmarshalMap unmarshalString
    rcases hraw with h | ⟨content, h, hc⟩
    · exact ⟨UnmarshalError.syntaxError, by simp [decodeText, h, hnone]⟩
    · exact ⟨UnmarshalError.syntaxError, by simp [decodeText, h, hc, hnone, decodeDocument_str]⟩

/-- A notification whose payload `parseBody` unwraps is forwarded once, as the
JSON document of the result. -/
theorem notification_forwards_parsed (w : World) (hist : List Call) (m : snsMessage)
    (parsed : Option JMap) (htype : m.Type_ = Notification)
    (h : parseBody (stripQuotes m.Body) = Except.ok parsed) :
    (HandleSNSNotification w hist (some m)).1
      = [Call.post w.redirectURL (marshalMap parsed)
          (w.httpPost hist w.redirectURL (marshalMap parsed))] := by
  have hne : Notification ≠ SubscriptionConfirmation := by decide
  simp only [HandleSNSNotification, htype, hne, if_false, if_true, processSnsNotification,
    h, sendDataToServer_calls]

/-- The example of C6 is an object that is forwarded exactly: its one number,
1, is a `float64`. -/
theorem example_object_is_exact :
    parseJSON rawObject = some (JDoc.obj membersA1)
      ∧ float64Document (JDoc.obj membersA1) = true
      ∧ isExactly (JValue.obj mapA1) (JDoc.obj membersA1) = true := by
  decide!

/-- Every text of an object can be sent as a JSON string: for a text of an
object for which the decoder stores the map `o`, the notification whose raw
`Message` is the JSON string literal of that text is forwarded once, as `o`. -/
theorem quoted_text_is_forwarded (w : World) (hist : List Call) (text : Str)
    (members : List (Str × JDoc)) (o : JMap)
    (h : parseJSON text = some (JDoc.obj members))
    (ho : decodeDocument (JDoc.obj members) = some (JValue.obj o)) :
    (HandleSNSNotification w hist (some (notificationOf (jsonStringLiteral text)))).1
      = [Call.post w.redirectURL (JValue.obj o)
          (w.httpPost hist w.redirectURL (JValue.obj o))] := by
  have hparse := (parseBody_of_object_text (jsonStringLiteral text) members
    (Or.inr ⟨text, parseJSON_jsonStringLiteral text, h⟩)).2.1 o ho
  exact notification_forwards_parsed w hist (notificationOf (jsonStringLiteral text))
    (some o) rfl hparse

/-! ### The JSON decoder: its fuel is enough -/

/-- Skipping whitespace does not lengthen a text. -/
theorem length_skipSpace_le (cs : Str) : (skipSpace cs).length ≤ cs.length := by
  induction cs with
  | nil => simp [skipSpace]
  | cons c tl ih =>
    unfold skipSpace
    split
    · simp only [List.length_cons]; omega
    · simp

/-- A string literal is not empty: the text after it is shorter. -/
theorem length_scanString_lt (cs s rest : Str) (h : scanString cs = some (s, rest)) :
    rest.length < cs.length := by
  obtain ⟨pre, hpre⟩ := scanStringFrom_split cs 0 s rest h
  rw [hpre]
  simp only [List.length_append, List.length_cons]
  omega

/-- The text after a run of digits is not longer than the text. -/
theorem length_spanDigits_le (cs : Str) : (spanDigits cs).2.length ≤ cs.length := by
  induction cs with
  | nil => simp [spanDigits]
  | cons c tl ih =>
    unfold spanDigits
    split
    · simp only [List.length_cons]; omega
    · simp

/-- The integer part of a number is not empty. -/
theorem length_scanInt_lt (cs ip r : Str) (h : scanInt cs = some (ip, r)) :
    r.length < cs.length := by
  unfold scanInt at h
  split at h
  · cases h
  · rename_i c tl
    have := length_spanDigits_le tl
    split at h
    · simp only [Option.some.injEq, Prod.mk.injEq] at h
      rw [← h.2]; simp
    · split at h
      · simp only [Option.some.injEq, Prod.mk.injEq] at h
        rw [← h.2]; simp only [List.length_cons]; omega
      · cases h

/-- The text after a fraction is not longer than the text. -/
theorem length_scanFrac_le (cs fp r : Str) (h : scanFrac cs = some (fp, r)) :
    r.length ≤ cs.length := by
  unfold scanFrac at h
  split at h
  · rename_i tl
    have := length_spanDigits_le tl
    split at h
    · cases h
    · rename_i ds rest _ heq
      simp only [Option.some.injEq, Prod.mk.injEq] at h
      have : rest = (spanDigits tl).2 := by rw [heq]
      rw [← h.2, this]; simp only [List.length_cons]; omega
  · simp only [Option.some.injEq, Prod.mk.injEq] at h
    rw [← h.2]

/-- The text that `spanDigits` leaves is not longer than the text. -/
theorem length_spanDigits_of_eq (cs ds rest : Str) (h : spanDigits cs = (ds, rest)) :
    rest.length ≤ cs.length := by
  have := length_spanDigits_le cs
  rw [h] at this
  exact this

/-- The text after an exponent is not longer than the text. -/
theorem length_scanExp_le (cs : Str) (neg : Bool) (ds r : Str)
    (h : scanExp cs = some (neg, ds, r)) : r.length ≤ cs.length := by
  unfold scanExp at h
  split at h
  · simp only [Option.some.injEq, Prod.mk.injEq] at h
    rw [← h.2.2]
  · rename_i c tl
    split at h
    · split at h
      · rename_i r0
        split at h
        · cases h
        · rename_i ds0 rest0 _ heq
          simp only [Option.some.injEq, Prod.mk.injEq] at h
          have := length_spanDigits_of_eq _ _ _ heq
          rw [← h.2.2]; simp only [List.length_cons]; omega
      · rename_i r0
        split at h
        · cases h
        · rename_i ds0 rest0 _ heq
          simp only [Option.some.injEq, Prod.mk.injEq] at h
          have := length_spanDigits_of_eq _ _ _ heq
          rw [← h.2.2]; simp only [List.length_cons]; omega
      · rename_i r0 _ _
        split at h
        · cases h
        · rename_i ds0 rest0 _ heq
          simp only [Option.some.injEq, Prod.mk.injEq] at h
          have := length_spanDigits_of_eq _ _ _ heq
          rw [← h.2.2]; simp only [List.length_cons]; omega
    · simp only [Option.some.injEq, Prod.mk.injEq] at h
      rw [← h.2.2]

/-- A number literal is not empty: the text after it is shorter. -/
theorem length_scanNumber_lt (cs : Str) (n : Decimal) (rest : Str)
    (h : scanNumber cs = some (n, rest)) : rest.length < cs.length := by
  unfold scanNumber at h
  simp only at h
  split at h
  · cases h
  · rename_i ip r1 hint
    split at h
    · cases h
    · rename_i fp r2 hfrac
      split at h
      · cases h
      · rename_i eneg ep r3 hexp
        simp only [Option.some.injEq, Prod.mk.injEq] at h
        have h1 := length_scanInt_lt _ _ _ hint
        have h2 := length_scanFrac_le _ _ _ hfrac
        have h3 := length_scanExp_le _ _ _ _ hexp
        rw [← h.2]
        split at h1
        · simp only [List.length_drop] at h1
          omega
        · omega

/-- The text after a keyword is not longer than the text. -/
theorem length_keyword_le (tail : Str) (v v1 : JDoc) (cs rest : Str)
    (h : keyword tail v cs = some (v1, rest)) : rest.length ≤ cs.length := by
  unfold keyword at h
  split at h
  · simp only [Option.some.injEq, Prod.mk.injEq] at h
    rw [← h.2]; simp
  · cases h

/-- The decoder does not depend on its fuel: a value read with some fuel is
not empty, and is read the same with any fuel that is at least the number of
characters it takes. -/
theorem decoder_fuel (g : Nat) :
    (∀ cs v rest, value g cs = some (v, rest) →
        rest.length < cs.length
          ∧ ∀ f, cs.length ≤ f + rest.length → value f cs = some (v, rest))
      ∧ (∀ acc cs v rest, array g acc cs = some (v, rest) →
        rest.length < cs.length
          ∧ ∀ f, cs.length ≤ f + rest.length → array f acc cs = some (v, rest))
      ∧ (∀ acc cs v rest, object g acc cs = some (v, rest) →
        rest.length < cs.length
          ∧ ∀ f, cs.length ≤ f + rest.length → object f acc cs = some (v, rest)) := by
  induction g with
  | zero => simp [value, array, object]
  | succ g ih =>
    obtain ⟨ihv, iha, iho⟩ := ih
    refine ⟨?_, ?_, ?_⟩
    · intro cs v rest h
      have hsk := length_skipSpace_le cs
      unfold value at h
      split at h
      · cases h
      · rename_i c r heq
        rw [heq] at hsk
        simp only [List.length_cons] at hsk
        by_cases hc1 : c = '{'
        · simp only [hc1, if_true] at h
          have hsk2 := length_skipSpace_le r
          split at h
          · cases h
          · rename_i d r1 heq2
            rw [heq2] at hsk2
            simp only [List.length_cons] at hsk2
            by_cases hd : d = '}'
            · simp only [hd, if_true, Option.some.injEq, Prod.mk.injEq] at h
              obtain ⟨hv, hr⟩ := h
              subst hv hr
              refine ⟨by omega, ?_⟩
              intro f hf
              obtain ⟨f1, rfl⟩ : ∃ f1, f = f1 + 1 := ⟨f - 1, by omega⟩
              simp only [value, heq, hc1, if_true, if_false, heq2, hd]
            · simp only [hd, if_false] at h
              obtain ⟨hlt, hfuel⟩ := iho _ _ _ _ h
              simp only [List.length_cons] at hlt hfuel
              refine ⟨by omega, ?_⟩
              intro f hf
              obtain ⟨f1, rfl⟩ : ∃ f1, f = f1 + 1 := ⟨f - 1, by omega⟩
              simp only [value, heq, hc1, if_true, heq2, hd, if_false]
              exact hfuel f1 (by omega)
        · simp only [hc1, if_false] at h
          by_cases hc2 : c = '['
          · simp only [hc2, if_true] at h
            have hsk2 := length_skipSpace_le r
            split at h
            · cases h
            · rename_i d r1 heq2
              rw [heq2] at hsk2
              simp only [List.length_cons] at hsk2
              by_cases hd : d = ']'
              · simp only [hd, if_true, Option.some.injEq, Prod.mk.injEq] at h
                obtain ⟨hv, hr⟩ := h
                subst hv hr
                refine ⟨by omega, ?_⟩
                intro f hf
                obtain ⟨f1, rfl⟩ : ∃ f1, f = f1 + 1 := ⟨f - 1, by omega⟩
                simp only [value, heq, hc2, if_true, if_false, heq2, hd]
                rw [if_neg (by decide)]
              · simp only [hd, if_false] at h
                obtain ⟨hlt, hfuel⟩ := iha _ _ _ _ h
                simp only [List.length_cons] at hlt hfuel
                refine ⟨by omega, ?_⟩
                intro f hf
                obtain ⟨f1, rfl⟩ : ∃ f1, f = f1 + 1 := ⟨f - 1, by omega⟩
                simp only [value, heq, hc1, hc2, if_true, heq2, hd, if_false]
                exact hfuel f1 (by omega)
          · simp only [hc2, if_false] at h
            have hlen : rest.length < cs.length := by
              by_cases hc3 : c = '"'
              · simp only [hc3, if_true] at h
                split at h
                · rename_i s r1 hs
                  simp only [Option.some.injEq, Prod.mk.injEq] at h
                  have := length_scanString_lt _ _ _ hs
                  rw [← h.2]; omega
                · cases h
              · simp only [hc3, if_false] at h
                by_cases hc4 : c = 'n'
                · simp only [hc4, if_true] at h
                  have := length_keyword_le _ _ _ _ _ h
                  omega
                · simp only [hc4, if_false] at h
                  by_cases hc5 : c = 't'
                  · simp only [hc5, if_true] at h
                    have := length_keyword_le _ _ _ _ _ h
                    omega
                  · simp only [hc5, if_false] at h
                    by_cases hc6 : c = 'f'
                    · simp only [hc6, if_true] at h
                      have := length_keyword_le _ _ _ _ _ h
                      omega
                    · simp only [hc6, if_false] at h
                      split at h
                      · rename_i lit r1 hn
                        simp only [Option.some.injEq, Prod.mk.injEq] at h
                        have := length_scanNumber_lt _ _ _ hn
                        simp only [List.length_cons] at this
                        rw [← h.2]; omega
                      · cases h
            refine ⟨hlen, ?_⟩
            intro f hf
            obtain ⟨f1, rfl⟩ : ∃ f1, f = f1 + 1 := ⟨f - 1, by omega⟩
            simp only [value, heq, hc1, hc2, if_false]
            exact h
    · intro acc cs v rest h
      unfold array at h
      split at h
      · cases h
      · rename_i v1 r hval
        obtain ⟨hlt1, hfuel1⟩ := ihv _ _ _ hval
        have hsk := length_skipSpace_le r
        split at h
        · cases h
        · rename_i d r1 heq
          rw [heq] at hsk
          simp only [List.length_cons] at hsk
          by_cases hd1 : d = ','
          · simp only [hd1, if_true] at h
            obtain ⟨hlt2, hfuel2⟩ := iha _ _ _ _ h
            refine ⟨by omega, ?_⟩
            intro f hf
            obtain ⟨f1, rfl⟩ : ∃ f1, f = f1 + 1 := ⟨f - 1, by omega⟩
            simp only [array, hfuel1 f1 (by omega), heq, hd1, if_true]
            exact hfuel2 f1 (by omega)
          · simp only [hd1, if_false] at h
            by_cases hd2 : d = ']'
            · simp only [hd2, if_true, Option.some.injEq, Prod.mk.injEq] at h
              obtain ⟨hv, hr⟩ := h
              subst hv hr
              refine ⟨by omega, ?_⟩
              intro f hf
              obtain ⟨f1, rfl⟩ : ∃ f1, f = f1 + 1 := ⟨f - 1, by omega⟩
              simp only [array, hfuel1 f1 (by omega), heq, hd2, if_true]
              rw [if_neg (by decide)]
            · simp only [hd2, if_false] at h
              cases h
    · intro acc cs v rest h
      have hsk := length_skipSpace_le cs
      unfold object at h
      split at h
      · cases h
      · rename_i q r heq
        rw [heq] at hsk
        simp only [List.length_cons] at hsk
        by_cases hq : q = '"'
        · simp only [hq, if_true] at h
          split at h
          · cases h
          · rename_i k r1 hkey
            have hk := length_scanString_lt _ _ _ hkey
            have hsk1 := length_skipSpace_le r1
            split at h
            · cases h
            · rename_i colon r2 heq1
              rw [heq1] at hsk1
              simp only [List.length_cons] at hsk1
              by_cases hcol : colon = ':'
              · simp only [hcol, if_true] at h
                split at h
                · cases h
                · rename_i v1 r3 hval
                  obtain ⟨hlt1, hfuel1⟩ := ihv _ _ _ hval
                  have hsk3 := length_skipSpace_le r3
                  split at h
                  · cases h
                  · rename_i d r4 heq3
                    rw [heq3] at hsk3
                    simp only [List.length_cons] at hsk3
                    by_cases hd1 : d = ','
                    · simp only [hd1, if_true] at h
                      obtain ⟨hlt2, hfuel2⟩ := iho _ _ _ _ h
                      refine ⟨by omega, ?_⟩
                      intro f hf
                      obtain ⟨f1, rfl⟩ : ∃ f1, f = f1 + 1 := ⟨f - 1, by omega⟩
                      simp only [object, heq, hq, if_true, hkey, heq1, hcol,
                        hfuel1 f1 (by omega), heq3, hd1]
                      exact hfuel2 f1 (by omega)
                    · simp only [hd1, if_false] at h
                      by_cases hd2 : d = '}'
                      · simp only [hd2, if_true, Option.some.injEq, Prod.mk.injEq] at h
                        obtain ⟨hv, hr⟩ := h
                        subst hv hr
                        refine ⟨by omega, ?_⟩
                        intro f hf
                        obtain ⟨f1, rfl⟩ : ∃ f1, f = f1 + 1 := ⟨f - 1, by omega⟩
                        simp only [object, heq, hq, if_true, hkey, heq1, hcol,
                          hfuel1 f1 (by omega), heq3, hd2]
                        rw [if_neg (by decide)]
                      · simp only [hd2, if_false] at h
                        cases h
              · simp only [hcol, if_false] at h
                cases h
        · simp only [hq, if_false] at h
          cases h

/-- The fuel of `parseJSON` is enough: a text that `value` reads to its end
with any fuel is read by `parseJSON`, as the same document. -/
theorem parseJSON_of_value (data : Str) (g : Nat) (doc : JDoc) (rest : Str)
    (h : value g data = some (doc, rest)) (hrest : skipSpace rest = []) :
    parseJSON data = some doc := by
  obtain ⟨_, hfuel⟩ := (decoder_fuel g).1 data doc rest h
  unfold parseJSON
  rw [hfuel (data.length + 1) (by omega)]
  simp only [hrest, if_true]

/-! ### The RFC 3339 codec: parsing what was formatted -/

/-- The example of C9 evaluated: the timestamp is forwarded without its zero
fraction, and a cycle with this one message forwards it and deletes it. -/
theorem forwarded_example :
    timeFormat ⟨2024, 1, 1, 0, 0, 0, 0, 0⟩ = "2024-01-01T00:00:00Z".toList
      ∧ pollCycle flakyWorld "queue-url".toList []
          (some [⟨bodyHi, "rh-1".toList, "id-1".toList⟩])
        = [[Call.post "http://sink/logs".toList forwardedHi (PostResult.response 200),
            Call.deleteMessage "queue-url".toList "rh-1".toList true]] := by
  decide!

end Gateway

